import Mathlib

/-!
smallsh: a shallow embedding of `smallsh.c`.

The C program is a small interactive shell.  This development embeds its
string and table manipulating functions (`varExpansion`, `tokenize`,
`checkRedirection`, `checkBackground`, `checkBackgroundStatus`,
`changeDirectory`, `getStatus`, `execCommand`, `handle_SIGTSTP`, `prompt`,
`main`) as executable Lean functions and proves properties about them.

Conventions of the embedding

* A C string is the list of its bytes before the terminating NUL (`CStr`).
  Reading index `s.length` reads the terminator, which is rendered as
  `s[i]? = none`.
* A fixed-size C array that is filled front to back (`buffer[2048]`,
  `args[512]`, `newArgs[512]`) is the list of the cells written so far; a
  write whose index is not below the declared size is a `Fault`.
* Everything the operating system decides (the pid, what `fork` and
  `waitpid` return, the working directory) is an explicit input.
* What the shell does to the outside world is an explicit list of `Event`s.
-/

namespace Smallsh

/-- The bytes of a C string before its terminating NUL. -/
abbrev CStr := List Char

/-- Ways in which the C program leaves defined behaviour. -/
inductive Fault
  /-- A write to `buffer[idx]` of `varExpansion` with `idx ≥ 2048`. -/
  | bufferOverflow (idx : Nat)
  /-- A write to `args[idx]` or `newArgs[idx]` with `idx ≥ 512`. -/
  | argsOverflow (idx : Nat)
  /-- A write to `bgIDs[idx]` with `idx ≥ 20`. -/
  | jobTableOverflow (idx : Nat)
  /-- A NULL pointer handed to `strcmp` or dereferenced. -/
  | nullDeref
  /-- A read of an array cell that was never written. -/
  | uninitRead (idx : Nat)
  /-- A `sprintf` into `newpath[100]` of more than 99 bytes. -/
  | pathOverflow (len : Nat)
  /-- The loop bound of the embedding ran out (never happens, see the theorems). -/
  | fuel
  deriving DecidableEq, Repr

/-- The result of running a piece of the program: a value, or a fault. -/
inductive Res (α : Type) where
  | ok (a : α)
  | fault (f : Fault)
  deriving DecidableEq, Repr

/-! ## `varExpansion` (smallsh.c, 242-287) -/

/-- The assignment `buffer[new_i] = c; new_i++` on `char buffer[2048]`, where
`new_i` is the number of cells written so far. -/
def bufWrite (buffer : List Char) (c : Char) : Res (List Char) :=
  if buffer.length < 2048 then .ok (buffer ++ [c])
  else .fault (.bufferOverflow buffer.length)

/-- The inner loop `for (j = 0; j < pid_len; j++) buffer[new_i++] = pid_str[j];`
walking over the digits of `pid_str`. -/
def copyPid : CStr → List Char → Res (List Char)
  | [], buffer => .ok buffer
  | d :: ds, buffer =>
    match bufWrite buffer d with
    | .fault f => .fault f
    | .ok buffer1 => copyPid ds buffer1

/-- The loop `for (int i = 0; command[i] != 0; i++) { ... }` of `varExpansion`. -/
def expandLoop (command pid_str : CStr) : Nat → Nat → List Char → Res (List Char)
  | 0, _, _ => .fault .fuel
  | fuel + 1, i, buffer =>
    match command[i]? with
    | none => .ok buffer
    | some c =>
      if c = '$' ∧ command[i + 1]? = some '$' then
        match copyPid pid_str buffer with
        | .fault f => .fault f
        | .ok buffer1 => expandLoop command pid_str fuel (i + 1 + 1) buffer1
      else
        match bufWrite buffer c with
        | .fault f => .fault f
        | .ok buffer1 => expandLoop command pid_str fuel (i + 1) buffer1

/-- The function `varExpansion`: the new contents of `command` and the returned flag.
`pid` is what `getpid()` returned; `sprintf(pid_str, "%d", pid)` gives its
decimal digits. -/
def varExpansion (command : CStr) (pid : Nat) : Res (CStr × Bool) :=
  let pid_str := Nat.toDigits 10 pid
  match expandLoop command pid_str (command.length + 1) 0 [] with
  | .fault f => .fault f
  | .ok buffer =>
    -- buffer[new_i] = 0
    if buffer.length < 2048 then
      -- strcmp(buffer, command) != 0
      if buffer ≠ command then .ok (buffer, true) else .ok (command, false)
    else .fault (.bufferOverflow buffer.length)

/-- The specification of expansion in the words of the spec: scan left to right,
replace each non-overlapping `$$` by the digits, copy every other character. -/
def expandSpec (digits : List Char) : List Char → List Char
  | [] => []
  | [c] => [c]
  | c :: d :: rest =>
    if c = '$' ∧ d = '$' then digits ++ expandSpec digits rest
    else c :: expandSpec digits (d :: rest)

/-! ## `tokenize` (smallsh.c, 173-195) -/

/-- The C library function `strtok`, as the C standard describes it, on the
string that starts at the saved pointer: skip the leading delimiters
(`strspn`); at the end of the string return NULL; otherwise the token runs
up to the next delimiter (`strcspn`), that delimiter is overwritten with NUL
and the saved pointer moves past it.  Returns the token and the string left
at the new saved pointer. -/
def strtok (delim : List Char) (s : CStr) : Option CStr × CStr :=
  match s.dropWhile (fun c => decide (c ∈ delim)) with
  | [] => (none, [])
  | c :: s1 =>
    (some ((c :: s1).takeWhile (fun c => decide (c ∉ delim))),
      ((c :: s1).dropWhile (fun c => decide (c ∉ delim))).tail)

/-- The array `char *args[512]` as the list of its cells written so far; a
cell holds NULL (`none`) or a pointer to a string. -/
abbrev Args := List (Option CStr)

/-- The assignment `args[argIdx] = v; argIdx++` on a 512-cell array, where
`argIdx` is the number of cells written so far. -/
def argsWrite (args : Args) (v : Option CStr) : Res Args :=
  if args.length < 512 then .ok (args ++ [v])
  else .fault (.argsOverflow args.length)

/-- The loop `while (token != NULL) { token = strtok(NULL, delimiter);
args[argIdx] = token; argIdx++; }` followed by `args[argIdx] = NULL`. -/
def tokenizeLoop (delimiter : List Char) :
    Nat → Option CStr → CStr → Args → Res Args
  | 0, _, _, _ => .fault .fuel
  | fuel + 1, token, saved, args =>
    match token with
    | none => argsWrite args none
    | some _ =>
      match argsWrite args (strtok delimiter saved).1 with
      | .fault f => .fault f
      | .ok args1 =>
        tokenizeLoop delimiter fuel (strtok delimiter saved).1 (strtok delimiter saved).2 args1

/-- The function `tokenize`: the cells of `args` it has written. -/
def tokenize (command : CStr) : Res Args :=
  let delimiter : List Char := [' ']
  match argsWrite [] (strtok delimiter command).1 with
  | .fault f => .fault f
  | .ok args =>
    tokenizeLoop delimiter (command.length + 2) (strtok delimiter command).1
      (strtok delimiter command).2 args

/-- The arguments a NULL-terminated `args` array denotes: the strings before
the first NULL cell. -/
def argv : Args → List CStr
  | some a :: rest => a :: argv rest
  | _ => []

/-- The cells `tokenize` leaves for a list of tokens: the tokens, the NULL that
ends the loop and the NULL written after the loop. -/
def argsOf (toks : List CStr) : Args := toks.map some ++ [none, none]

/-- The maximal runs of non-space characters of a line, in order. -/
def nonSpaceRuns (s : List Char) : List (List Char) :=
  (s.splitOnP (fun c => c == ' ')).filter (fun t => decide (t ≠ []))

/-! ## `checkRedirection` (smallsh.c, 201-236) -/

/-- The loop `while (args[i] != NULL) { ... i++; }` of `checkRedirection`;
`newArgs` holds the cells written so far, so `j` is its length. -/
def redirLoop (args : Args) :
    Nat → Nat → Args → Option CStr → Option CStr → Res (Args × Option CStr × Option CStr)
  | 0, _, _, _, _ => .fault .fuel
  | fuel + 1, i, newArgs, inputFile, outputFile =>
    match args[i]? with
    | none => .fault (.uninitRead i)
    | some none => .ok (newArgs, inputFile, outputFile)
    | some (some a) =>
      if a = ['>'] then
        -- *outputFile = args[i+1]; i++;
        match args[i + 1]? with
        | none => .fault (.uninitRead (i + 1))
        | some f => redirLoop args fuel (i + 1 + 1) newArgs inputFile f
      else if a = ['<'] then
        -- *inputFile = args[i+1]; i++;
        match args[i + 1]? with
        | none => .fault (.uninitRead (i + 1))
        | some f => redirLoop args fuel (i + 1 + 1) newArgs f outputFile
      else
        -- newArgs[j] = args[i]; j++;
        match argsWrite newArgs (some a) with
        | .fault f => .fault f
        | .ok newArgs1 => redirLoop args fuel (i + 1) newArgs1 inputFile outputFile

/-- The loop `for (int k = 0; k <= j; k++) args[k] = newArgs[k];`, walking over
the cells `newArgs[k], newArgs[k+1], ...`. -/
def copyBack : Args → Nat → Args → Args
  | [], _, args => args
  | v :: rest, k, args => copyBack rest (k + 1) (args.set k v)

/-- The function `checkRedirection`: the new `args`, `*inputFile`, `*outputFile`. -/
def checkRedirection (args : Args) (inputFile outputFile : Option CStr) :
    Res (Args × Option CStr × Option CStr) :=
  match redirLoop args (args.length + 1) 0 [] inputFile outputFile with
  | .fault f => .fault f
  | .ok (newArgs, inputFile1, outputFile1) =>
    -- newArgs[j] = NULL
    match argsWrite newArgs none with
    | .fault f => .fault f
    | .ok newArgs1 => .ok (copyBack newArgs1 0 args, inputFile1, outputFile1)

/-- Whether a token is one of the two redirection operators. -/
def isRedirOp (t : CStr) : Bool := t = ['>'] || t = ['<']

/-- Every operator that the left-to-right scan reaches is followed by a token. -/
def operatorsHaveTargets : List CStr → Bool
  | [] => true
  | [t] => !isRedirOp t
  | t :: f :: rest =>
    if isRedirOp t then operatorsHaveTargets rest else operatorsHaveTargets (f :: rest)

/-- The tokens that immediately follow an operator `op` reached by the
left-to-right scan, in order. -/
def targetsOf (op : CStr) : List CStr → List CStr
  | [] => []
  | [_] => []
  | t :: f :: rest =>
    if isRedirOp t then (if t = op then f :: targetsOf op rest else targetsOf op rest)
    else targetsOf op (f :: rest)

/-- The token list with the operator/target pairs removed. -/
def withoutRedirections : List CStr → List CStr
  | [] => []
  | [t] => if isRedirOp t then [] else [t]
  | t :: f :: rest =>
    if isRedirOp t then withoutRedirections rest else t :: withoutRedirections (f :: rest)

/-- What the scan of `checkRedirection` computes on any token list, also one
that ends in an operator (whose target is then the NULL after the tokens). -/
def redirScan : List CStr → Option CStr → Option CStr → List CStr × Option CStr × Option CStr
  | [], inputFile, outputFile => ([], inputFile, outputFile)
  | [t], inputFile, outputFile =>
    if t = ['>'] then ([], inputFile, none)
    else if t = ['<'] then ([], none, outputFile)
    else ([t], inputFile, outputFile)
  | t :: f :: rest, inputFile, outputFile =>
    if t = ['>'] then redirScan rest inputFile (some f)
    else if t = ['<'] then redirScan rest (some f) outputFile
    else
      let r := redirScan (f :: rest) inputFile outputFile
      (t :: r.1, r.2)

/-! ## `checkBackground` (smallsh.c, 146-167) -/

/-- The loop `while (args[i] != NULL) i++;`: the index of the first NULL cell. -/
def countArgs (args : Args) : Nat → Nat → Res Nat
  | 0, _ => .fault .fuel
  | fuel + 1, i =>
    match args[i]? with
    | none => .fault (.uninitRead i)
    | some none => .ok i
    | some (some _) => countArgs args fuel (i + 1)

/-- The function `checkBackground`: the new `args` and the returned flag. -/
def checkBackground (args : Args) : Res (Args × Bool) :=
  match countArgs args (args.length + 1) 0 with
  | .fault f => .fault f
  | .ok i =>
    if 0 < i then
      match args[i - 1]?, args[0]? with
      | some (some last), some (some a0) =>
        if last = "&".toList ∧ a0 ≠ "cd".toList ∧ a0 ≠ "status".toList ∧ a0 ≠ "exit".toList then
          .ok (args.set (i - 1) none, true)
        else .ok (args, false)
      | _, _ => .fault .nullDeref
    else .ok (args, false)

/-! ## The outside world -/

/-- A wait status, through the values the macros of `<sys/wait.h>` give on it. -/
structure WaitStatus where
  /-- The value of `WIFEXITED(status)`. -/
  wifexited : Bool
  /-- The value of `WEXITSTATUS(status)`. -/
  wexitstatus : Nat
  /-- The value of `WIFSIGNALED(status)`. -/
  wifsignaled : Bool
  /-- The value of `WTERMSIG(status)`. -/
  wtermsig : Nat
  deriving DecidableEq, Repr

/-- The disposition of SIGINT a child installs. -/
inductive SigDisposition
  | SIG_IGN
  | SIG_DFL
  deriving DecidableEq, Repr

/-- What the child branch of `execCommand` does, step by step.  A redirection
that cannot open its file prints `cannot open ...` and ends the child with
`exit(1)`; an `execvp` that fails ends it with `perror` and `exit(1)`. -/
inductive ChildStep
  /-- The call `sigaction(SIGINT, ...)` with the given handler. -/
  | sigint (d : SigDisposition)
  /-- The calls `open("/dev/null", O_RDONLY)` and `dup2(fd, 0)`. -/
  | nullInput
  /-- The calls `open("/dev/null", O_WRONLY)` and `dup2(fd, 1)`. -/
  | nullOutput
  /-- The calls `open(inputFile, O_RDONLY)` and `dup2(fd, 0)`. -/
  | inputFrom (path : CStr)
  /-- The calls `open(outputFile, O_WRONLY | O_CREAT | O_TRUNC, 0644)` and `dup2(fd, 1)`. -/
  | outputTo (path : CStr)
  /-- The call `execvp(args[0], args)`. -/
  | execvp (argv : List CStr)
  deriving DecidableEq, Repr

/-- What the shell process does to the outside world. -/
inductive Event
  /-- A `printf` or `write` to standard output. -/
  | print (s : String)
  /-- A call of `perror`. -/
  | perror (s : String)
  /-- The call `chdir(path)`. -/
  | chdir (path : CStr)
  /-- A `fork()` that created a child, with the steps that child runs. -/
  | fork (child : List ChildStep)
  /-- The blocking `waitpid(childPid, &childStatus, 0)`. -/
  | waitpid (childPid : Int)
  /-- The call `exit(code)` of the shell itself. -/
  | exit (code : Nat)
  deriving DecidableEq, Repr

/-- The state of the shell process between two calls of `prompt`: the locals
of `main` and the global `foregroundOnly`. -/
structure Shell where
  lastExitStatus : Int
  /-- The array `pid_t bgIDs[20]`. -/
  bgIDs : List Int
  bgIDsIdx : Nat
  foregroundOnly : Bool
  deriving DecidableEq, Repr

/-- What the operating system answers during one call of `prompt`. -/
structure World where
  /-- What `getpid()` returns. -/
  pid : Nat
  /-- The positive results of the successive `waitpid(-1, &bgStatus, WNOHANG)`
  calls of the sweep, with the status each stored -/
  reaped : List (Int × WaitStatus)
  /-- The working directory, as `getcwd` reports it. -/
  cwd : CStr
  /-- What `fork()` returns in the shell: -1, or the pid of the child. -/
  forkResult : Int
  /-- The status `waitpid(childPid, &childStatus, 0)` stores. -/
  childStatus : WaitStatus
  deriving DecidableEq, Repr

/-- The result of a piece of the shell: the new state, what it did, and
whether it ended the process with `exit`. -/
structure Step where
  shell : Shell
  events : List Event
  exited : Bool
  deriving DecidableEq, Repr

/-! ## `checkBackgroundStatus` (smallsh.c, 115-139) -/

/-- The inner loop `for (int j = i; j < *bgIDsIdx - 1; j++) bgIDs[j] = bgIDs[j + 1];`. -/
def shiftLeft (bgIDsIdx : Nat) : Nat → Nat → List Int → List Int
  | 0, _, bgIDs => bgIDs
  | fuel + 1, j, bgIDs =>
    if j < bgIDsIdx - 1 then shiftLeft bgIDsIdx fuel (j + 1) (bgIDs.set j (bgIDs.getD (j + 1) 0))
    else bgIDs

/-- The loop `for (int i = 0; i < *bgIDsIdx; i++) { if (bgIDs[i] == currBgID) { ...; break; } }`. -/
def removeLoop (currBgID : Int) : Nat → Nat → List Int → Nat → List Int × Nat
  | 0, _, bgIDs, bgIDsIdx => (bgIDs, bgIDsIdx)
  | fuel + 1, i, bgIDs, bgIDsIdx =>
    if i < bgIDsIdx then
      if bgIDs.getD i 0 = currBgID then
        (shiftLeft bgIDsIdx bgIDsIdx i bgIDs, bgIDsIdx - 1)
      else removeLoop currBgID fuel (i + 1) bgIDs bgIDsIdx
    else (bgIDs, bgIDsIdx)

/-- The removal step ("rearrange array") of `checkBackgroundStatus` for one
reaped pid: the new array and the new count. -/
def removeJob (bgIDs : List Int) (bgIDsIdx : Nat) (currBgID : Int) : List Int × Nat :=
  removeLoop currBgID bgIDsIdx 0 bgIDs bgIDsIdx

/-- The message `checkBackgroundStatus` prints for one reaped child. -/
def doneMessage (currBgID : Int) (bgStatus : WaitStatus) : List Event :=
  if bgStatus.wifexited then
    [.print ("background pid " ++ toString currBgID ++ " is done: exit value "
      ++ toString bgStatus.wexitstatus ++ "\n")]
  else if bgStatus.wifsignaled then
    [.print ("background pid " ++ toString currBgID ++ " is done: terminated by signal "
      ++ toString bgStatus.wtermsig ++ "\n")]
  else []

/-- The function `checkBackgroundStatus`, over the children the sweep reaps. -/
def checkBackgroundStatus :
    List (Int × WaitStatus) → List Int → Nat → List Event × List Int × Nat
  | [], bgIDs, bgIDsIdx => ([], bgIDs, bgIDsIdx)
  | (currBgID, bgStatus) :: more, bgIDs, bgIDsIdx =>
    let r := removeJob bgIDs bgIDsIdx currBgID
    let rest := checkBackgroundStatus more r.1 r.2
    (doneMessage currBgID bgStatus ++ rest.1, rest.2)

/-- The job table: the first `bgIDsIdx` cells of `bgIDs`. -/
def jobTable (bgIDs : List Int) (bgIDsIdx : Nat) : List Int := bgIDs.take bgIDsIdx

/-! ## The built-ins (smallsh.c, 293-349) -/

/-- The function `changeDirectory`.  `getcwd(currPath, 100)` fails on a
working directory of 100 bytes or more and leaves `currPath` unset;
`sprintf` into `newpath[100]` must fit with its NUL. -/
def changeDirectory (args : Args) (cwd : CStr) : Res (List Event) :=
  match args[0]?, args[1]? with
  | some a0, some a1 =>
    if a0 ≠ none ∧ a1 = none then
      .ok [.chdir "/nfs/stak/users/montgale".toList]
    else
      match a1 with
      | none => .fault .nullDeref
      | some path =>
        if path[0]? = some '/' then
          if path.length < 100 then .ok [.chdir path]
          else .fault (.pathOverflow path.length)
        else if cwd.length < 100 then
          if (cwd ++ '/' :: path).length < 100 then .ok [.chdir (cwd ++ '/' :: path)]
          else .fault (.pathOverflow (cwd ++ '/' :: path).length)
        else .fault (.uninitRead 0)
  | none, _ => .fault (.uninitRead 0)
  | _, none => .fault (.uninitRead 1)

/-- The function `getStatus`. -/
def getStatus (lastExitStatus : Int) : List Event :=
  if lastExitStatus = 0 then [.print "exit value 0\n"]
  else if lastExitStatus = 1 then [.print "exit value 1\n"]
  else []

/-! ## `execCommand` (smallsh.c, 357-464) -/

/-- The child branch (`childPid == 0`).  Its `checkBackgroundStatus` call runs
in the new process, which has no children: `waitpid` returns -1 there and the
loop body never runs. -/
def childBranch (background : Bool) (args : Args) (inputFile outputFile : Option CStr) :
    List ChildStep :=
  [.sigint (if background then .SIG_IGN else .SIG_DFL)]
  ++ (if background ∧ inputFile = none then [.nullInput] else [])
  ++ (if background ∧ outputFile = none then [.nullOutput] else [])
  ++ (match inputFile with
      | some f => [.inputFrom f]
      | none => [])
  ++ (match outputFile with
      | some f => [.outputTo f]
      | none => [])
  ++ [.execvp (argv args)]

/-- The assignment `bgIDs[*bgIDsIdx] = childPid; (*bgIDsIdx)++;` on `pid_t bgIDs[20]`. -/
def recordJob (bgIDs : List Int) (bgIDsIdx : Nat) (childPid : Int) : Res (List Int × Nat) :=
  if bgIDsIdx < 20 then .ok (bgIDs.set bgIDsIdx childPid, bgIDsIdx + 1)
  else .fault (.jobTableOverflow bgIDsIdx)

/-- The status the parent stores after the foreground wait. -/
def foregroundStatus (childStatus : WaitStatus) : Int :=
  if childStatus.wifexited ∧ childStatus.wexitstatus ≠ 0 then 1
  else if childStatus.wifsignaled then 1
  else 0

/-- The function `execCommand`, as run by the shell process (`fork()` returning
-1 or the pid of the child); the child is `childBranch`. -/
def execCommand (sh : Shell) (hasExpansion background : Bool) (args : Args)
    (inputFile outputFile : Option CStr) (forkResult : Int) (childStatus : WaitStatus) :
    Res Step :=
  let background := if sh.foregroundOnly then false else background
  let _ := hasExpansion
  let child := childBranch background args inputFile outputFile
  if forkResult = -1 then
    .ok { shell := sh, events := [.perror "fork() failed!", .exit 1], exited := true }
  else if background then
    match recordJob sh.bgIDs sh.bgIDsIdx forkResult with
    | .fault f => .fault f
    | .ok (bgIDs1, bgIDsIdx1) =>
      .ok { shell := { sh with bgIDs := bgIDs1, bgIDsIdx := bgIDsIdx1 },
            events := [.fork child, .print ("background pid is " ++ toString forkResult ++ "\n")],
            exited := false }
  else
    .ok { shell := { sh with lastExitStatus := foregroundStatus childStatus },
          events := [.fork child, .waitpid forkResult],
          exited := false }

/-! ## `handle_SIGTSTP` (smallsh.c, 470-482) -/

/-- The signal handler: the new value of `foregroundOnly` and what it writes
(`write` with the byte counts 31 and 52 of the source). -/
def handle_SIGTSTP (sh : Shell) : Shell × List Event :=
  if sh.foregroundOnly then
    ({ sh with foregroundOnly := false },
      [.print (String.mk ("\nExiting foreground-only mode\n: ".toList.take 31))])
  else
    ({ sh with foregroundOnly := true },
      [.print (String.mk ("\nEntering foreground-only mode (& is now ignored)\n: ".toList.take 52))])

/-! ## `prompt` and `main` (smallsh.c, 50-109 and 485-516) -/

/-- Lines 70-73 of `prompt`: drop the newline that `fgets` stored. -/
def stripNewline (commandStr : CStr) : CStr :=
  if commandStr.getLast? = some '\n' then commandStr.dropLast else commandStr

/-- Lines 87-108 of `prompt`: from `checkRedirection` to the dispatch, on the
`args` that `tokenize` wrote. -/
def dispatch (sh : Shell) (w : World) (hasExpansion : Bool) (args : Args) : Res Step :=
  match checkRedirection args none none with
  | .fault f => .fault f
  | .ok (args1, inputFile, outputFile) =>
    match args1[0]? with
    | none => .fault (.uninitRead 0)
    | some none => .fault .nullDeref
    | some (some a0) =>
      if a0 = "exit".toList then
        .ok { shell := sh, events := [.exit 0], exited := true }
      else if a0 = "cd".toList then
        match changeDirectory args1 w.cwd with
        | .fault f => .fault f
        | .ok evs => .ok { shell := sh, events := evs, exited := false }
      else if a0 = "status".toList then
        .ok { shell := sh, events := getStatus sh.lastExitStatus, exited := false }
      else
        match checkBackground args1 with
        | .fault f => .fault f
        | .ok (args2, background) =>
          execCommand sh hasExpansion background args2 inputFile outputFile
            w.forkResult w.childStatus

/-- Lines 75-108 of `prompt`, on the command string without its newline. -/
def runLine (sh : Shell) (w : World) (commandStr : CStr) : Res Step :=
  if commandStr[0]? = none ∨ commandStr[0]? = some '#' then
    .ok { shell := sh, events := [], exited := false }
  else
    match varExpansion commandStr w.pid with
    | .fault f => .fault f
    | .ok (commandStr1, hasExpansion) =>
      match tokenize commandStr1 with
      | .fault f => .fault f
      | .ok args => dispatch sh w hasExpansion args

/-- The function `prompt`; `line` is what `fgets` stored in `commandStr`. -/
def prompt (sh : Shell) (w : World) (line : CStr) : Res Step :=
  let swept := checkBackgroundStatus w.reaped sh.bgIDs sh.bgIDsIdx
  let sh1 : Shell := { sh with bgIDs := swept.2.1, bgIDsIdx := swept.2.2 }
  match runLine sh1 w (stripNewline line) with
  | .fault f => .fault f
  | .ok st => .ok { st with events := swept.1 ++ Event.print ": " :: st.events }

/-- The state `main` starts the loop with; `garbage` is the indeterminate
initial content of `bgIDs[20]`. -/
def initialShell (garbage : List Int) : Shell :=
  { lastExitStatus := 0, bgIDs := garbage, bgIDsIdx := 0, foregroundOnly := false }

/-- What happens to the shell between two returns to `main`: one call of
`prompt`, or a SIGTSTP delivered to the shell. -/
inductive Input
  | line (w : World) (l : CStr)
  | sigtstp
  deriving DecidableEq, Repr

/-- The loop `while (1) { prompt(...); usleep(10000); }` of `main` over a
sequence of inputs, until `exit`. -/
def mainLoop : List Input → Shell → List Event → Res Step
  | [], sh, evs => .ok { shell := sh, events := evs, exited := false }
  | .sigtstp :: more, sh, evs =>
    mainLoop more (handle_SIGTSTP sh).1 (evs ++ (handle_SIGTSTP sh).2)
  | .line w l :: more, sh, evs =>
    match prompt sh w l with
    | .fault f => .fault f
    | .ok st =>
      if st.exited then .ok { st with events := evs ++ st.events }
      else mainLoop more st.shell (evs ++ st.events)

/-! ## Sample inputs -/

/-- The wait status of a child that called `exit(code)`. -/
def exitedWith (code : Nat) : WaitStatus :=
  { wifexited := true, wexitstatus := code, wifsignaled := false, wtermsig := 0 }

/-- A prompt cycle in which the sweep reaps nothing: the shell has pid 4242 and
works in `/home/u`, `fork` returns `childPid` and the child ends with `st`. -/
def quietWorld (childPid : Int) (st : WaitStatus) : World :=
  { pid := 4242, reaped := [], cwd := "/home/u".toList, forkResult := childPid,
    childStatus := st }

/-- The shell `main` starts with, the array `bgIDs` zeroed. -/
def freshShell : Shell := initialShell (List.replicate 20 0)

/-- The background launches `sleep 100 &` number `0 .. n-1`, the children
getting the pids `100, 101, ...`, none of them ending. -/
def sleepers (n : Nat) : List Input :=
  (List.range n).map (fun i => Input.line (quietWorld (100 + i) (exitedWith 0))
    "sleep 100 &\n".toList)

/-- A token list that starts with `exit` or `status`, or with `cd` followed by
an operand that is not a redirection operator. -/
def builtinWithOperand : List CStr → Bool
  | [] => false
  | [t] => t = "exit".toList || t = "status".toList
  | t :: d :: _ =>
    t = "exit".toList || t = "status".toList || (t = "cd".toList && !isRedirOp d)

/-! ## Lemmas and theorems -/

/-! ### Lemmas on `varExpansion` -/

theorem copyPid_ok (ds buffer : List Char) (h : buffer.length + ds.length ≤ 2048) :
    copyPid ds buffer = .ok (buffer ++ ds) := by
  induction ds generalizing buffer with
  | nil => simp [copyPid]
  | cons d ds ih =>
    simp only [List.length_cons] at h
    have hb : buffer.length < 2048 := by omega
    simp only [copyPid, bufWrite, hb, if_true]
    rw [ih (buffer ++ [d]) (by simp; omega)]
    simp

theorem copyPid_overflow (ds buffer : List Char) (hb : buffer.length ≤ 2048)
    (h : 2048 < buffer.length + ds.length) :
    copyPid ds buffer = .fault (.bufferOverflow 2048) := by
  induction ds generalizing buffer with
  | nil => simp at h; omega
  | cons d ds ih =>
    simp only [List.length_cons] at h
    by_cases hlt : buffer.length < 2048
    · simp only [copyPid, bufWrite, hlt, if_true]
      exact ih (buffer ++ [d]) (by simp; omega) (by simp; omega)
    · have : buffer.length = 2048 := by omega
      simp [copyPid, bufWrite, this]

theorem drop_of_getElem?_none {α : Type} (l : List α) (i : Nat) (h : l[i]? = none) :
    l.drop i = [] := by
  rw [List.getElem?_eq_none_iff] at h
  exact List.drop_eq_nil_of_le h

theorem drop_of_getElem?_some {α : Type} (l : List α) (i : Nat) (c : α)
    (h : l[i]? = some c) : l.drop i = c :: l.drop (i + 1) := by
  obtain ⟨hi, hc⟩ := List.getElem?_eq_some_iff.mp h
  rw [List.drop_eq_getElem_cons hi, hc]

theorem expandLoop_ok (command pid_str : CStr) :
    ∀ (fuel i : Nat) (buffer : List Char), command.length < fuel + i →
      i ≤ command.length →
      (buffer ++ expandSpec pid_str (command.drop i)).length ≤ 2048 →
      expandLoop command pid_str fuel i buffer
        = .ok (buffer ++ expandSpec pid_str (command.drop i)) := by
  intro fuel
  induction fuel with
  | zero =>
    intro i buffer hf hi _
    omega
  | succ fuel ih =>
    intro i buffer hf _ hlen
    unfold expandLoop
    cases hc : command[i]? with
    | none =>
      simp [drop_of_getElem?_none _ _ hc, expandSpec]
    | some c =>
      have hd := drop_of_getElem?_some _ _ _ hc
      have hi : i < command.length := (List.getElem?_eq_some_iff.mp hc).1
      cases hc1 : command[i + 1]? with
      | none =>
        have hd1 := drop_of_getElem?_none _ _ hc1
        rw [hd, hd1] at hlen ⊢
        simp only [expandSpec, List.length_append, List.length_singleton] at hlen
        have hb : buffer.length < 2048 := by omega
        have h2 := ih (i + 1) (buffer ++ [c]) (by omega) (by omega)
          (by rw [hd1]; simp [expandSpec]; omega)
        simp only [hd1, expandSpec, List.append_nil] at h2
        simp [bufWrite, hb, h2, expandSpec]
      | some d =>
        have hd1 := drop_of_getElem?_some _ _ _ hc1
        have hi1 : i + 1 < command.length := (List.getElem?_eq_some_iff.mp hc1).1
        rw [hd, hd1] at hlen ⊢
        by_cases hcd : c = '$' ∧ d = '$'
        · simp only [expandSpec, hcd, and_self, if_true, List.length_append] at hlen
          have hcond : c = '$' ∧ some d = some '$' := ⟨hcd.1, by rw [hcd.2]⟩
          simp only [hcond, and_self, if_true, expandSpec, hcd]
          rw [copyPid_ok pid_str buffer (by omega)]
          simp only
          rw [ih (i + 1 + 1) (buffer ++ pid_str) (by omega) (by omega)
            (by simp only [List.length_append]; omega)]
          simp
        · have hcond : ¬ (c = '$' ∧ some d = some '$') := by
            intro h; exact hcd ⟨h.1, Option.some.inj h.2⟩
          simp only [expandSpec, hcd, if_false, List.length_append, List.length_cons] at hlen
          have hb : buffer.length < 2048 := by omega
          simp only [hcond, if_false, bufWrite, hb, if_true, expandSpec, hcd]
          rw [ih (i + 1) (buffer ++ [c]) (by omega) (by omega)
            (by rw [hd1]; simp only [List.length_append, List.length_cons,
                  List.length_nil]; omega)]
          rw [hd1]; simp

theorem expandLoop_overflow (command pid_str : CStr) :
    ∀ (fuel i : Nat) (buffer : List Char), command.length < fuel + i →
      i ≤ command.length →
      buffer.length ≤ 2048 →
      2048 < (buffer ++ expandSpec pid_str (command.drop i)).length →
      expandLoop command pid_str fuel i buffer = .fault (.bufferOverflow 2048) := by
  intro fuel
  induction fuel with
  | zero =>
    intro i buffer hf hi _ _
    omega
  | succ fuel ih =>
    intro i buffer hf _ hb hlen
    unfold expandLoop
    cases hc : command[i]? with
    | none =>
      simp [drop_of_getElem?_none _ _ hc, expandSpec] at hlen
      omega
    | some c =>
      have hd := drop_of_getElem?_some _ _ _ hc
      have hi : i < command.length := (List.getElem?_eq_some_iff.mp hc).1
      cases hc1 : command[i + 1]? with
      | none =>
        have hd1 := drop_of_getElem?_none _ _ hc1
        rw [hd, hd1] at hlen
        simp only [expandSpec, List.length_append, List.length_singleton] at hlen
        have hb2 : buffer.length = 2048 := by omega
        simp [bufWrite, hb2]
      | some d =>
        have hd1 := drop_of_getElem?_some _ _ _ hc1
        have hi1 : i + 1 < command.length := (List.getElem?_eq_some_iff.mp hc1).1
        rw [hd, hd1] at hlen
        by_cases hcd : c = '$' ∧ d = '$'
        · simp only [expandSpec, hcd, and_self, if_true, List.length_append] at hlen
          have hcond : c = '$' ∧ some d = some '$' := ⟨hcd.1, by rw [hcd.2]⟩
          simp only [hcond, and_self, if_true]
          by_cases hfit : buffer.length + pid_str.length ≤ 2048
          · rw [copyPid_ok pid_str buffer hfit]
            simp only
            exact ih (i + 1 + 1) (buffer ++ pid_str) (by omega) (by omega)
              (by simp only [List.length_append]; omega)
              (by simp only [List.length_append]; omega)
          · rw [copyPid_overflow pid_str buffer hb (by omega)]
        · have hcond : ¬ (c = '$' ∧ some d = some '$') := by
            intro h; exact hcd ⟨h.1, Option.some.inj h.2⟩
          simp only [expandSpec, hcd, if_false, List.length_append, List.length_cons] at hlen
          simp only [hcond, if_false, bufWrite]
          by_cases hlt : buffer.length < 2048
          · simp only [hlt, if_true]
            exact ih (i + 1) (buffer ++ [c]) (by omega) (by omega)
              (by simp only [List.length_append, List.length_singleton]; omega)
              (by rw [hd1]; simp only [List.length_append, List.length_cons,
                    List.length_nil]; omega)
          · have hb2 : buffer.length = 2048 := by omega
            simp [hb2]

/-- What `varExpansion` does in terms of the specification: when the expansion
has at most 2047 characters it is the new command, otherwise the function
writes outside `buffer`, the first such write being at index 2048. -/
theorem varExpansion_eq (command : CStr) (pid : Nat) :
    varExpansion command pid =
      if (expandSpec (Nat.toDigits 10 pid) command).length < 2048 then
        .ok (expandSpec (Nat.toDigits 10 pid) command,
          decide (expandSpec (Nat.toDigits 10 pid) command ≠ command))
      else .fault (.bufferOverflow 2048) := by
  unfold varExpansion
  by_cases h : (expandSpec (Nat.toDigits 10 pid) command).length ≤ 2048
  · have hl := expandLoop_ok command (Nat.toDigits 10 pid) (command.length + 1) 0 []
      (by omega) (by omega) (by simpa using h)
    simp only [List.drop_zero, List.nil_append] at hl
    simp only [hl]
    by_cases h2 : (expandSpec (Nat.toDigits 10 pid) command).length < 2048
    · simp only [h2, if_true]
      by_cases h3 : expandSpec (Nat.toDigits 10 pid) command = command
      · simp [h3]
      · simp [h3]
    · have : (expandSpec (Nat.toDigits 10 pid) command).length = 2048 := by omega
      simp [this]
  · have hl := expandLoop_overflow command (Nat.toDigits 10 pid) (command.length + 1) 0 []
      (by omega) (by omega) (by simp) (by simpa using h)
    have h2 : ¬ (expandSpec (Nat.toDigits 10 pid) command).length < 2048 := by omega
    simp only [hl, h2, if_false]



/-! ### Lemmas on `tokenize` -/

theorem dropWhile_head_false {α : Type} (p : α → Bool) :
    ∀ (l : List α) (d : α) (r : List α), l.dropWhile p = d :: r → p d = false := by
  intro l
  induction l with
  | nil => intro d r h; simp at h
  | cons a l ih =>
    intro d r h
    by_cases ha : p a = true
    · rw [List.dropWhile_cons_of_pos ha] at h
      exact ih d r h
    · rw [List.dropWhile_cons_of_neg ha] at h
      simp only [List.cons.injEq] at h
      rw [← h.1]
      simpa using ha

theorem nonSpaceRuns_nil : nonSpaceRuns [] = [] := by
  simp [nonSpaceRuns]

theorem nonSpaceRuns_cons_space (s : List Char) :
    nonSpaceRuns (' ' :: s) = nonSpaceRuns s := by
  simp [nonSpaceRuns]

/-- A non-empty run without a space, followed by the end of the line. -/
theorem nonSpaceRuns_single (t : List Char) (hne : t ≠ []) (hsp : ∀ x ∈ t, x ≠ ' ') :
    nonSpaceRuns t = [t] := by
  unfold nonSpaceRuns
  rw [List.splitOnP_eq_single (fun c => c == ' ') t (by simpa using hsp)]
  simp [hne]

/-- A non-empty run without a space, followed by a space and the rest of the line. -/
theorem nonSpaceRuns_first (t r : List Char) (hne : t ≠ []) (hsp : ∀ x ∈ t, x ≠ ' ') :
    nonSpaceRuns (t ++ ' ' :: r) = t :: nonSpaceRuns r := by
  unfold nonSpaceRuns
  rw [List.splitOnP_first (fun c => c == ' ') t (by simpa using hsp) ' ' (by simp) r]
  simp [hne]

theorem strtok_cons_space (s : CStr) : strtok [' '] (' ' :: s) = strtok [' '] s := by
  simp [strtok]

/-- One call of `strtok` with the space as delimiter, in terms of the runs:
NULL when the rest of the line has no run, else the first run, leaving a
strictly shorter rest that holds the other runs. -/
theorem strtok_spec (s : CStr) :
    ((strtok [' '] s).1 = none ∧ nonSpaceRuns s = []) ∨
    (∃ t, (strtok [' '] s).1 = some t ∧
      nonSpaceRuns s = t :: nonSpaceRuns (strtok [' '] s).2 ∧
      (strtok [' '] s).2.length < s.length) := by
  induction s with
  | nil => left; simp [strtok, nonSpaceRuns]
  | cons c s ih =>
    by_cases hc : c = ' '
    · subst hc
      rw [strtok_cons_space, nonSpaceRuns_cons_space]
      rcases ih with h | ⟨t, h1, h2, h3⟩
      · left; exact h
      · right; exact ⟨t, h1, h2, by simp only [List.length_cons]; omega⟩
    · right
      have hdw : (c :: s).dropWhile (fun c => decide (c ∈ [' '])) = c :: s := by
        simp [List.dropWhile_cons, hc]
      have hst : strtok [' '] (c :: s) =
          (some ((c :: s).takeWhile (fun c => decide (c ∉ [' ']))),
            ((c :: s).dropWhile (fun c => decide (c ∉ [' ']))).tail) := by
        simp only [strtok, hdw]
      have htk : ∀ x ∈ (c :: s).takeWhile (fun c => decide (c ∉ [' '])), x ≠ ' ' := by
        intro x hx
        have := List.mem_takeWhile_imp hx
        simpa using this
      have hne : (c :: s).takeWhile (fun c => decide (c ∉ [' '])) ≠ [] := by
        simp [List.takeWhile_cons, hc]
      have happ := List.takeWhile_append_dropWhile (fun c => decide (c ∉ [' '])) (c :: s)
      refine ⟨_, by rw [hst], ?_, ?_⟩
      · rw [hst]
        simp only
        cases hdr : (c :: s).dropWhile (fun c => decide (c ∉ [' '])) with
        | nil =>
          rw [hdr, List.append_nil] at happ
          rw [List.tail_nil, nonSpaceRuns_nil]
          conv_lhs => rw [← happ]
          exact nonSpaceRuns_single _ hne htk
        | cons d r =>
          have hd := dropWhile_head_false _ _ _ _ hdr
          have hd2 : d = ' ' := by simpa using hd
          subst hd2
          rw [hdr] at happ
          rw [List.tail_cons]
          conv_lhs => rw [← happ]
          exact nonSpaceRuns_first _ r hne htk
      · rw [hst]
        simp only
        have hl := congrArg List.length happ
        rw [List.length_append] at hl
        have hpos : 0 < ((c :: s).takeWhile (fun c => decide (c ∉ [' ']))).length :=
          List.length_pos.mpr hne
        rw [List.length_tail]
        omega

theorem tokenizeLoop_ok :
    ∀ (fuel : Nat) (t0 : CStr) (saved : CStr) (args : Args),
      saved.length + 2 ≤ fuel →
      args.length + (nonSpaceRuns saved).length + 2 ≤ 512 →
      tokenizeLoop [' '] fuel (some t0) saved args
        = .ok (args ++ ((nonSpaceRuns saved).map some ++ [none, none])) := by
  intro fuel
  induction fuel with
  | zero => intro t0 saved args h; omega
  | succ fuel ih =>
    intro t0 saved args hf hcap
    unfold tokenizeLoop
    rcases strtok_spec saved with ⟨h1, h2⟩ | ⟨t, h1, h2, h3⟩
    · have hcap2 : args.length + 2 ≤ 512 := by simpa [h2] using hcap
      rw [h1, h2]
      have ha : args.length < 512 := by omega
      simp only [argsWrite, ha, if_true]
      cases fuel with
      | zero => omega
      | succ fuel =>
        have ha2 : (args ++ [none]).length < 512 := by
          simp only [List.length_append, List.length_singleton]; omega
        simp only [tokenizeLoop, argsWrite, ha2, if_true]
        simp
    · rw [h1]
      rw [h2] at hcap ⊢
      simp only [List.length_cons] at hcap
      have ha : args.length < 512 := by omega
      simp only [argsWrite, ha, if_true]
      rw [ih t _ (args ++ [some t]) (by omega)
        (by simp only [List.length_append, List.length_singleton]; omega)]
      simp

/-- What `tokenize` writes, when the runs fit the array: the runs in order,
then two NULL cells. -/
theorem tokenize_eq (command : CStr) (hcap : (nonSpaceRuns command).length + 2 ≤ 512) :
    tokenize command = .ok (argsOf (nonSpaceRuns command)) := by
  unfold tokenize
  simp only
  rcases strtok_spec command with ⟨h1, h2⟩ | ⟨t, h1, h2, h3⟩
  · rw [h1, h2]
    simp [argsWrite, tokenizeLoop, argsOf]
  · rw [h1]
    rw [h2] at hcap ⊢
    simp only [List.length_cons] at hcap
    simp only [argsWrite, List.length_nil, Nat.zero_lt_succ, if_true, List.nil_append]
    rw [tokenizeLoop_ok _ t _ [some t] (by omega)
      (by simp only [List.length_singleton]; omega)]
    simp [argsOf]

theorem argv_argsOf (toks : List CStr) : argv (argsOf toks) = toks := by
  induction toks with
  | nil => simp [argsOf, argv]
  | cons t toks ih =>
    show t :: argv (argsOf toks) = t :: toks
    rw [ih]

theorem nonSpaceRuns_ne_nil (s : List Char) : ∀ t ∈ nonSpaceRuns s, t ≠ [] := by
  intro t ht
  simp only [nonSpaceRuns, List.mem_filter, decide_eq_true_eq] at ht
  exact ht.2

theorem splitOnP_no_sep {α : Type} (p : α → Bool) :
    ∀ (s : List α), ∀ t ∈ s.splitOnP p, ∀ x ∈ t, p x = false := by
  intro s
  induction s with
  | nil => intro t ht x hx; simp at ht; subst ht; simp at hx
  | cons c s ih =>
    intro t ht x hx
    rw [List.splitOnP_cons] at ht
    by_cases hc : p c = true
    · simp only [hc, if_true, List.mem_cons] at ht
      rcases ht with h | h
      · subst h; simp at hx
      · exact ih t h x hx
    · simp only [hc] at ht
      cases hs : s.splitOnP p with
      | nil => exact absurd hs (List.splitOnP_ne_nil p s)
      | cons h tl =>
        rw [hs] at ht ih
        simp only [Bool.false_eq_true, if_false, List.modifyHead_cons, List.mem_cons] at ht
        rcases ht with h1 | h1
        · subst h1
          simp only [List.mem_cons] at hx
          rcases hx with h2 | h2
          · subst h2; simpa using hc
          · exact ih h (List.mem_cons_self _ _) x h2
        · exact ih t (List.mem_cons_of_mem _ h1) x hx

theorem nonSpaceRuns_no_space (s : List Char) : ∀ t ∈ nonSpaceRuns s, ' ' ∉ t := by
  intro t ht hsp
  simp only [nonSpaceRuns, List.mem_filter] at ht
  have := splitOnP_no_sep (fun c => c == ' ') s t ht.1 ' ' hsp
  simp at this

/-- The runs, put end to end, are the non-space characters of the line in order. -/
theorem nonSpaceRuns_flatten (s : List Char) :
    (nonSpaceRuns s).flatten = s.filter (fun c => decide (c ≠ ' ')) := by
  induction s with
  | nil => simp [nonSpaceRuns]
  | cons c s ih =>
    by_cases hc : c = ' '
    · subst hc
      rw [nonSpaceRuns_cons_space, ih]
      simp
    · unfold nonSpaceRuns at ih ⊢
      rw [List.splitOnP_cons]
      have hc2 : ¬ ((c == ' ') = true) := by simpa using hc
      simp only [hc2, if_false]
      cases hs : s.splitOnP (fun c => c == ' ') with
      | nil => exact absurd hs (List.splitOnP_ne_nil _ s)
      | cons h tl =>
        rw [hs] at ih
        rw [List.filter_cons_of_pos (by simpa using hc), ← ih]
        by_cases hh : h = []
        · subst hh; simp [List.filter_cons]
        · simp [List.filter_cons, hh]

/-! ### Lemmas on `checkRedirection` -/

theorem getElem?_of_drop_eq_cons {α : Type} (l : List α) (i : Nat) (x : α) (r : List α)
    (h : l.drop i = x :: r) : l[i]? = some x ∧ l.drop (i + 1) = r := by
  have hi : i < l.length := by
    by_contra hn
    rw [List.drop_eq_nil_of_le (by omega)] at h
    exact List.noConfusion h
  rw [List.drop_eq_getElem_cons hi] at h
  simp only [List.cons.injEq] at h
  exact ⟨by rw [List.getElem?_eq_getElem hi, h.1], h.2⟩

theorem redirScan_length :
    ∀ (n : Nat) (toks : List CStr) (a b : Option CStr), toks.length ≤ n →
      (redirScan toks a b).1.length ≤ toks.length := by
  intro n
  induction n with
  | zero =>
    intro toks a b h
    have : toks = [] := List.length_eq_zero.mp (by omega)
    subst this
    simp [redirScan]
  | succ n ih =>
    intro toks a b h
    match toks, h with
    | [], _ => simp [redirScan]
    | [t], _ =>
      simp only [redirScan]
      split
      · simp
      · split <;> simp
    | t :: f :: rest, h =>
      simp only [List.length_cons] at h
      simp only [redirScan]
      split
      · have := ih rest a (some f) (by omega)
        simp only [List.length_cons]; omega
      · split
        · have := ih rest (some f) b (by omega)
          simp only [List.length_cons]; omega
        · have := ih (f :: rest) a b (by simp only [List.length_cons]; omega)
          simp only [List.length_cons] at this ⊢
          omega

/-- The scanning loop on the cells `tokenize` wrote, started at a cell from
which the tokens `rest` and the two NULL cells follow. -/
theorem redirLoop_eq (args : Args) :
    ∀ (fuel : Nat) (rest : List CStr) (i : Nat) (newArgs : Args) (a b : Option CStr),
      rest.length + 2 ≤ fuel →
      args.drop i = argsOf rest →
      newArgs.length + rest.length ≤ 512 →
      redirLoop args fuel i newArgs a b
        = .ok (newArgs ++ (redirScan rest a b).1.map some, (redirScan rest a b).2) := by
  intro fuel
  induction fuel with
  | zero => intro rest i newArgs a b h; omega
  | succ fuel ih =>
    intro rest i newArgs a b hf hd hcap
    unfold redirLoop
    match rest, hf, hd, hcap with
    | [], _, hd, _ =>
      have h0 := getElem?_of_drop_eq_cons args i none [none] (by simpa [argsOf] using hd)
      simp [h0.1, redirScan]
    | [t], hf, hd, hcap =>
      have h0 := getElem?_of_drop_eq_cons args i (some t) [none, none]
        (by simpa [argsOf] using hd)
      have h1 := getElem?_of_drop_eq_cons args (i + 1) none [none] h0.2
      have h2 := getElem?_of_drop_eq_cons args (i + 1 + 1) none [] h1.2
      simp only [List.length_singleton] at hf hcap
      have hfuel : fuel = (fuel - 1) + 1 := by omega
      simp only [h0.1, h1.1, redirScan]
      by_cases ht : t = ['>']
      · simp only [ht, if_true]
        rw [hfuel]
        simp [redirLoop, h2.1]
      · simp only [ht, if_false]
        by_cases ht2 : t = ['<']
        · simp only [ht2, if_true]
          rw [hfuel]
          simp [redirLoop, h2.1]
        · have hlen : newArgs.length < 512 := by omega
          simp only [ht2, if_false, argsWrite, hlen, if_true]
          rw [hfuel]
          simp [redirLoop, h1.1]
    | t :: f :: rest, hf, hd, hcap =>
      have h0 := getElem?_of_drop_eq_cons args i (some t) (argsOf (f :: rest))
        (by simpa [argsOf] using hd)
      have h1 := getElem?_of_drop_eq_cons args (i + 1) (some f) (argsOf rest)
        (by simpa [argsOf] using h0.2)
      simp only [List.length_cons] at hf hcap
      simp only [h0.1, h1.1, redirScan]
      by_cases ht : t = ['>']
      · simp only [ht, if_true]
        exact ih rest (i + 1 + 1) newArgs a (some f) (by omega) h1.2 (by omega)
      · simp only [ht, if_false]
        by_cases ht2 : t = ['<']
        · simp only [ht2, if_true]
          exact ih rest (i + 1 + 1) newArgs (some f) b (by omega) h1.2 (by omega)
        · have hlen : newArgs.length < 512 := by omega
          simp only [ht2, if_false, argsWrite, hlen, if_true]
          rw [ih (f :: rest) (i + 1) (newArgs ++ [some t]) a b
            (by simp only [List.length_cons]; omega) h0.2
            (by simp only [List.length_append, List.length_singleton, List.length_cons,
                  List.length_nil]; omega)]
          simp

theorem redirScan_cons_keep (t : CStr) (rest : List CStr) (a b : Option CStr)
    (ht : isRedirOp t = false) :
    redirScan (t :: rest) a b = (t :: (redirScan rest a b).1, (redirScan rest a b).2) := by
  simp only [isRedirOp, Bool.or_eq_false_iff, decide_eq_false_iff_not] at ht
  cases rest with
  | nil => simp [redirScan, ht.1, ht.2]
  | cons f rest => simp [redirScan, ht.1, ht.2]

theorem operatorsHaveTargets_cons_keep (t : CStr) (rest : List CStr)
    (ht : isRedirOp t = false) :
    operatorsHaveTargets (t :: rest) = operatorsHaveTargets rest := by
  cases rest with
  | nil => simp [operatorsHaveTargets, ht]
  | cons f rest => simp [operatorsHaveTargets, ht]

/-- The scanning loop on any NULL-terminated `args` (whatever the cells behind
the first NULL hold), started at a cell from which the tokens `rest` and the
NULL follow, when every operator reached has its target. -/
theorem redirLoop_wellFormed (args junk : Args) :
    ∀ (fuel : Nat) (rest : List CStr) (i : Nat) (newArgs : Args) (a b : Option CStr),
      rest.length + 1 ≤ fuel →
      args.drop i = rest.map some ++ none :: junk →
      operatorsHaveTargets rest = true →
      newArgs.length + rest.length ≤ 512 →
      redirLoop args fuel i newArgs a b
        = .ok (newArgs ++ (redirScan rest a b).1.map some, (redirScan rest a b).2) := by
  intro fuel
  induction fuel with
  | zero => intro rest i newArgs a b h; omega
  | succ fuel ih =>
    intro rest i newArgs a b hf hd hwf hcap
    unfold redirLoop
    match rest, hf, hd, hwf, hcap with
    | [], _, hd, _, _ =>
      have h0 := getElem?_of_drop_eq_cons args i none junk (by simpa using hd)
      simp [h0.1, redirScan]
    | t :: rest, hf, hd, hwf, hcap =>
      have h0 := getElem?_of_drop_eq_cons args i (some t) (rest.map some ++ none :: junk)
        (by simpa using hd)
      simp only [List.length_cons] at hf hcap
      simp only [h0.1]
      by_cases hop : isRedirOp t = true
      · match rest, hf, hwf, hcap, h0 with
        | [], _, hwf, _, _ => simp [operatorsHaveTargets, hop] at hwf
        | f :: rest, hf, hwf, hcap, h0 =>
          have h1 := getElem?_of_drop_eq_cons args (i + 1) (some f)
            (rest.map some ++ none :: junk) (by simpa using h0.2)
          simp only [List.length_cons] at hf hcap
          have hwf2 : operatorsHaveTargets rest = true := by
            simpa [operatorsHaveTargets, hop] using hwf
          simp only [isRedirOp, Bool.or_eq_true, decide_eq_true_eq] at hop
          by_cases ht : t = ['>']
          · simp only [ht, if_true, h1.1, redirScan]
            exact ih rest (i + 1 + 1) newArgs a (some f) (by omega) h1.2 hwf2 (by omega)
          · have ht2 : t = ['<'] := by
              rcases hop with h | h
              · exact absurd h ht
              · exact h
            simp only [ht, ht2, if_false, if_true, h1.1, redirScan]
            have hne : (['<'] : CStr) ≠ ['>'] := by decide
            simp only [hne, if_false]
            exact ih rest (i + 1 + 1) newArgs (some f) b (by omega) h1.2 hwf2 (by omega)
      · have hop2 : isRedirOp t = false := by simpa using hop
        have hwf2 : operatorsHaveTargets rest = true := by
          rw [operatorsHaveTargets_cons_keep t rest hop2] at hwf
          exact hwf
        have hlen : newArgs.length < 512 := by omega
        rw [redirScan_cons_keep t rest a b hop2]
        simp only [isRedirOp, Bool.or_eq_false_iff, decide_eq_false_iff_not] at hop2
        simp only [hop2.1, hop2.2, if_false, argsWrite, hlen, if_true]
        rw [ih rest (i + 1) (newArgs ++ [some t]) a b (by omega) h0.2 hwf2
          (by simp only [List.length_append, List.length_singleton]; omega)]
        simp

theorem take_set_self {α : Type} (l : List α) (k : Nat) (v : α) :
    (l.set k v).take k = l.take k := by
  apply List.ext_getElem?
  intro i
  rw [List.getElem?_take, List.getElem?_take]
  split
  · rw [List.getElem?_set_ne (by omega)]
  · rfl

theorem copyBack_eq :
    ∀ (vs : Args) (k : Nat) (args : Args), k + vs.length ≤ args.length →
      copyBack vs k args = args.take k ++ vs ++ args.drop (k + vs.length) := by
  intro vs
  induction vs with
  | nil => intro k args _; simp [copyBack]
  | cons v vs ih =>
    intro k args h
    simp only [List.length_cons] at h
    simp only [copyBack]
    rw [ih (k + 1) (args.set k v) (by simp only [List.length_set]; omega)]
    have hk : k < args.length := by omega
    rw [List.take_succ, List.getElem?_set, take_set_self,
      List.drop_set_of_lt v args (by omega)]
    simp only [if_true, hk, Option.toList_some, List.length_cons]
    have : k + 1 + vs.length = k + (vs.length + 1) := by omega
    rw [this]
    simp

theorem argv_map_some_none (l : List CStr) (r : Args) :
    argv (l.map some ++ none :: r) = l := by
  induction l with
  | nil => simp [argv]
  | cons t l ih =>
    show t :: argv (l.map some ++ none :: r) = t :: l
    rw [ih]

/-- The function `checkRedirection` on the cells `tokenize` wrote for `toks`:
the kept arguments and a NULL replace the first cells, the cells behind
them keep their old content. -/
theorem checkRedirection_argsOf (toks : List CStr) (a b : Option CStr)
    (hcap : toks.length + 2 ≤ 512) :
    checkRedirection (argsOf toks) a b
      = .ok ((redirScan toks a b).1.map some ++ none ::
              (argsOf toks).drop ((redirScan toks a b).1.length + 1),
            (redirScan toks a b).2) := by
  unfold checkRedirection
  rw [redirLoop_eq (argsOf toks) ((argsOf toks).length + 1) toks 0 [] a b
    (by simp [argsOf]) (by simp) (by simp only [List.length_nil]; omega)]
  have hlen := redirScan_length toks.length toks a b (Nat.le_refl _)
  have h1 : ((redirScan toks a b).1.map some).length < 512 := by
    simp only [List.length_map]; omega
  simp only [List.nil_append, argsWrite, h1, if_true]
  rw [copyBack_eq _ 0 _ (by simp [argsOf]; omega)]
  simp

/-- On a token list in which every operator reached has a target, the scan
removes the operator/target pairs, and each path is the last target of its
operator, else what it was before. -/
theorem redirScan_wellFormed :
    ∀ (n : Nat) (toks : List CStr) (a b : Option CStr), toks.length ≤ n →
      operatorsHaveTargets toks = true →
      redirScan toks a b
        = (withoutRedirections toks,
            ((targetsOf ['<'] toks).getLast?).or a,
            ((targetsOf ['>'] toks).getLast?).or b) := by
  intro n
  induction n with
  | zero =>
    intro toks a b h _
    have : toks = [] := List.length_eq_zero.mp (by omega)
    subst this
    simp [redirScan, withoutRedirections, targetsOf]
  | succ n ih =>
    intro toks a b h hwf
    match toks, h, hwf with
    | [], _, _ => simp [redirScan, withoutRedirections, targetsOf]
    | [t], _, hwf =>
      simp only [operatorsHaveTargets, isRedirOp, Bool.not_eq_true', Bool.or_eq_false_iff,
        decide_eq_false_iff_not] at hwf
      simp [redirScan, withoutRedirections, targetsOf, isRedirOp, hwf.1, hwf.2]
    | t :: f :: rest, h, hwf =>
      simp only [List.length_cons] at h
      by_cases ht : t = ['>']
      · subst ht
        have hwf2 : operatorsHaveTargets rest = true := by
          simpa [operatorsHaveTargets, isRedirOp] using hwf
        simp only [redirScan, if_true, withoutRedirections, targetsOf, isRedirOp,
          decide_True, Bool.true_or]
        rw [ih rest a (some f) (by omega) hwf2]
        have hne : (['>'] : CStr) ≠ ['<'] := by decide
        simp only [hne, if_false, if_true]
        rw [List.getLast?_cons]
        cases (targetsOf ['>'] rest).getLast? <;> simp
      · by_cases ht2 : t = ['<']
        · subst ht2
          have hwf2 : operatorsHaveTargets rest = true := by
            simpa [operatorsHaveTargets, isRedirOp] using hwf
          have hne : (['<'] : CStr) ≠ ['>'] := by decide
          simp only [redirScan, hne, if_false, if_true, withoutRedirections, targetsOf,
            isRedirOp, decide_True, Bool.or_true]
          rw [ih rest (some f) b (by omega) hwf2]
          rw [List.getLast?_cons]
          cases (targetsOf ['<'] rest).getLast? <;> simp
        · have hwf2 : operatorsHaveTargets (f :: rest) = true := by
            simpa [operatorsHaveTargets, isRedirOp, ht, ht2] using hwf
          have hop : isRedirOp t = false := by simp [isRedirOp, ht, ht2]
          simp only [redirScan, ht, ht2, if_false, withoutRedirections, targetsOf, hop,
            Bool.false_eq_true]
          rw [ih (f :: rest) a b (by simp only [List.length_cons]; omega) hwf2]

/-- The function `checkRedirection` on any NULL-terminated `args` that lies
within the 512 cells, when every operator reached has its target. -/
theorem checkRedirection_wellFormed (toks : List CStr) (junk : Args) (a b : Option CStr)
    (hcap : toks.length + 1 + junk.length ≤ 512)
    (hwf : operatorsHaveTargets toks = true) :
    checkRedirection (toks.map some ++ none :: junk) a b
      = .ok ((withoutRedirections toks).map some ++ none ::
              (toks.map some ++ none :: junk).drop ((withoutRedirections toks).length + 1),
            ((targetsOf ['<'] toks).getLast?).or a,
            ((targetsOf ['>'] toks).getLast?).or b) := by
  have hscan := redirScan_wellFormed toks.length toks a b (Nat.le_refl _) hwf
  have hlen := redirScan_length toks.length toks a b (Nat.le_refl _)
  unfold checkRedirection
  rw [redirLoop_wellFormed (toks.map some ++ none :: junk) junk
    ((toks.map some ++ none :: junk).length + 1) toks 0 [] a b
    (by simp only [List.length_append, List.length_map, List.length_cons]; omega)
    (by simp) hwf (by simp only [List.length_nil]; omega)]
  rw [hscan] at hlen ⊢
  simp only at hlen
  have h1 : ((withoutRedirections toks).map some).length < 512 := by
    simp only [List.length_map]; omega
  simp only [List.nil_append, argsWrite, h1, if_true]
  rw [copyBack_eq _ 0 _ (by
    simp only [List.length_append, List.length_map, List.length_cons, List.length_nil]
    omega)]
  simp

/-! ### Lemmas on the job table -/

/-- The cells after the inner loop: the cells `j .. bgIDsIdx - 2` hold what their
right neighbours held, every other cell is untouched. -/
theorem shiftLeft_getElem? (bgIDsIdx : Nat) :
    ∀ (fuel j : Nat) (bgIDs : List Int), bgIDsIdx ≤ bgIDs.length →
      bgIDsIdx - 1 - j ≤ fuel → ∀ k : Nat,
      (shiftLeft bgIDsIdx fuel j bgIDs)[k]?
        = if j ≤ k ∧ k < bgIDsIdx - 1 then bgIDs[k + 1]? else bgIDs[k]? := by
  intro fuel
  induction fuel with
  | zero =>
    intro j bgIDs _ hf k
    have : ¬ (j ≤ k ∧ k < bgIDsIdx - 1) := by omega
    simp [shiftLeft, this]
  | succ fuel ih =>
    intro j bgIDs hlen hf k
    unfold shiftLeft
    by_cases hj : j < bgIDsIdx - 1
    · simp only [hj, if_true]
      rw [ih (j + 1) _ (by simp only [List.length_set]; exact hlen) (by omega) k]
      have hj1 : j + 1 < bgIDs.length := by omega
      by_cases hk : j + 1 ≤ k ∧ k < bgIDsIdx - 1
      · have hk2 : j ≤ k ∧ k < bgIDsIdx - 1 := by omega
        simp only [hk, hk2, and_self, if_true]
        rw [List.getElem?_set_ne (by omega)]
      · simp only [hk, if_false]
        by_cases hkj : k = j
        · subst hkj
          have hk2 : k ≤ k ∧ k < bgIDsIdx - 1 := by omega
          simp only [hk2, and_self, if_true]
          rw [List.getElem?_set_self (by omega)]
          simp [List.getD_eq_getElem?_getD, List.getElem?_eq_getElem hj1]
        · have hk2 : ¬ (j ≤ k ∧ k < bgIDsIdx - 1) := by omega
          simp only [hk2, if_false]
          rw [List.getElem?_set_ne (by omega)]
    · have : ¬ (j ≤ k ∧ k < bgIDsIdx - 1) := by omega
      simp [hj, this]

theorem shiftLeft_length (bgIDsIdx : Nat) :
    ∀ (fuel j : Nat) (bgIDs : List Int),
      (shiftLeft bgIDsIdx fuel j bgIDs).length = bgIDs.length := by
  intro fuel
  induction fuel with
  | zero => intro j bgIDs; simp [shiftLeft]
  | succ fuel ih =>
    intro j bgIDs
    unfold shiftLeft
    split
    · rw [ih]; simp
    · rfl

/-- Deleting the cell `i` of the table by the shift. -/
theorem shiftLeft_take (bgIDs : List Int) (bgIDsIdx i : Nat)
    (hlen : bgIDsIdx ≤ bgIDs.length) (hi : i < bgIDsIdx) :
    (shiftLeft bgIDsIdx bgIDsIdx i bgIDs).take (bgIDsIdx - 1)
      = (bgIDs.take bgIDsIdx).eraseIdx i := by
  apply List.ext_getElem?
  intro k
  rw [List.getElem?_take, List.getElem?_eraseIdx]
  by_cases hk : k < bgIDsIdx - 1
  · simp only [hk, if_true]
    rw [shiftLeft_getElem? bgIDsIdx bgIDsIdx i bgIDs hlen (by omega) k]
    by_cases hki : k < i
    · have : ¬ (i ≤ k ∧ k < bgIDsIdx - 1) := by omega
      simp only [this, hki, if_false, if_true]
      rw [List.getElem?_take_of_lt (by omega)]
    · have : i ≤ k ∧ k < bgIDsIdx - 1 := by omega
      simp only [this, and_self, hki, if_false, if_true]
      rw [List.getElem?_take_of_lt (by omega)]
  · simp only [hk, if_false]
    by_cases hki : k < i
    · omega
    · simp only [hki, if_false]
      rw [List.getElem?_take_eq_none (by omega)]

theorem erase_eq_eraseIdx_of_first (l : List Int) (i : Nat) (x : Int)
    (hx : l[i]? = some x) (hnot : x ∉ l.take i) : l.erase x = l.eraseIdx i := by
  induction l generalizing i with
  | nil => simp at hx
  | cons a l ih =>
    cases i with
    | zero =>
      simp only [List.getElem?_cons_zero, Option.some.injEq] at hx
      subst hx
      simp
    | succ i =>
      simp only [List.getElem?_cons_succ] at hx
      simp only [List.take_succ_cons, List.mem_cons, not_or] at hnot
      have hne : ¬ ((a == x) = true) := by
        simp only [beq_iff_eq]
        exact fun h => hnot.1 h.symm
      rw [List.erase_cons_tail hne, List.eraseIdx_cons_succ, ih i hx hnot.2]

theorem removeLoop_spec (currBgID : Int) (bgIDs : List Int) (bgIDsIdx : Nat)
    (hlen : bgIDsIdx ≤ bgIDs.length) :
    ∀ (fuel i : Nat), bgIDsIdx - i ≤ fuel → i ≤ bgIDsIdx → currBgID ∉ bgIDs.take i →
      ((removeLoop currBgID fuel i bgIDs bgIDsIdx).1.take
          (removeLoop currBgID fuel i bgIDs bgIDsIdx).2
        = (bgIDs.take bgIDsIdx).erase currBgID) ∧
      (currBgID ∈ bgIDs.take bgIDsIdx →
        (removeLoop currBgID fuel i bgIDs bgIDsIdx).2 = bgIDsIdx - 1) ∧
      (currBgID ∉ bgIDs.take bgIDsIdx →
        removeLoop currBgID fuel i bgIDs bgIDsIdx = (bgIDs, bgIDsIdx)) ∧
      (removeLoop currBgID fuel i bgIDs bgIDsIdx).1.length = bgIDs.length := by
  intro fuel
  induction fuel with
  | zero =>
    intro i hf hi hnot
    have hii : i = bgIDsIdx := by omega
    subst hii
    simp only [removeLoop]
    exact ⟨(List.erase_of_not_mem hnot).symm, fun h => absurd h hnot, fun _ => by trivial,
      by trivial⟩
  | succ fuel ih =>
    intro i hf hi hnot
    unfold removeLoop
    by_cases hlt : i < bgIDsIdx
    · have hil : i < bgIDs.length := by omega
      simp only [hlt, if_true]
      by_cases hfound : bgIDs.getD i 0 = currBgID
      · have hget : bgIDs[i]? = some currBgID := by
          rw [List.getD_eq_getElem?_getD, List.getElem?_eq_getElem hil] at hfound
          rw [List.getElem?_eq_getElem hil]
          simpa using hfound
        have hget2 : (bgIDs.take bgIDsIdx)[i]? = some currBgID := by
          rw [List.getElem?_take_of_lt hlt]; exact hget
        have hmem : currBgID ∈ bgIDs.take bgIDsIdx := List.getElem?_mem hget2
        have hnot2 : currBgID ∉ (bgIDs.take bgIDsIdx).take i := by
          rw [List.take_take, Nat.min_eq_left (by omega)]; exact hnot
        simp only [hfound, if_true]
        refine ⟨?_, fun _ => by trivial, fun h => absurd hmem h, shiftLeft_length _ _ _ _⟩
        rw [shiftLeft_take bgIDs bgIDsIdx i hlen hlt,
          erase_eq_eraseIdx_of_first _ i currBgID hget2 hnot2]
      · simp only [hfound, if_false]
        apply ih (i + 1) (by omega) (by omega)
        rw [List.take_succ, List.getElem?_eq_getElem hil]
        simp only [Option.toList_some, List.mem_append, List.mem_singleton, not_or]
        refine ⟨hnot, ?_⟩
        rw [List.getD_eq_getElem?_getD, List.getElem?_eq_getElem hil] at hfound
        simp only [Option.getD_some] at hfound
        exact fun h => hfound h.symm
    · have hii : i = bgIDsIdx := by omega
      subst hii
      simp only [hlt, if_false]
      exact ⟨(List.erase_of_not_mem hnot).symm, fun h => absurd h hnot, fun _ => by trivial,
      by trivial⟩

/-! ## The claims -/

/-! ### `varExpansion` -/

/-- C1: for every command string `s` whose expansion fits the working buffer
(fewer than 2048 characters, so that the NUL fits too) and every process id
`p`, `varExpansion` rewrites `s` to the string obtained by scanning `s` left
to right, replacing each non-overlapping `$$` by the decimal digits of `p` and
copying every other character in order; the flag tells whether the string
changed.  On `a$$$b` that string is `a`, the digits, `$b`; on `$$$$` it is the
digits twice. -/
theorem varExpansion_replaces_each_sigil (s : CStr) (p : Nat)
    (hfit : (expandSpec (Nat.toDigits 10 p) s).length < 2048) :
    varExpansion s p
        = .ok (expandSpec (Nat.toDigits 10 p) s,
            decide (expandSpec (Nat.toDigits 10 p) s ≠ s)) ∧
      expandSpec (Nat.toDigits 10 p) "a$$$b".toList
        = 'a' :: Nat.toDigits 10 p ++ "$b".toList ∧
      expandSpec (Nat.toDigits 10 p) "$$$$".toList
        = Nat.toDigits 10 p ++ Nat.toDigits 10 p := by
  refine ⟨?_, ?_, ?_⟩
  · rw [varExpansion_eq, if_pos hfit]
  · simp [expandSpec]
  · simp [expandSpec]

theorem varExpansion_replaces_each_sigil_witness :
    (expandSpec (Nat.toDigits 10 77) "a$$$b".toList).length < 2048 ∧
      (varExpansion "a$$$b".toList 77
          = .ok (expandSpec (Nat.toDigits 10 77) "a$$$b".toList,
              decide (expandSpec (Nat.toDigits 10 77) "a$$$b".toList ≠ "a$$$b".toList)) ∧
        expandSpec (Nat.toDigits 10 77) "a$$$b".toList
          = 'a' :: Nat.toDigits 10 77 ++ "$b".toList ∧
        expandSpec (Nat.toDigits 10 77) "$$$$".toList
          = Nat.toDigits 10 77 ++ Nat.toDigits 10 77) :=
  ⟨by decide, varExpansion_replaces_each_sigil "a$$$b".toList 77 (by decide)⟩

theorem expandSpec_sigils_length (digits : List Char) :
    ∀ n : Nat, (expandSpec digits (List.replicate (2 * n) '$')).length = n * digits.length := by
  intro n
  induction n with
  | zero => simp [expandSpec]
  | succ n ih =>
    have h : List.replicate (2 * (n + 1)) '$' = '$' :: '$' :: List.replicate (2 * n) '$' := by
      rw [show 2 * (n + 1) = 2 * n + 1 + 1 by omega, List.replicate_succ, List.replicate_succ]
    rw [h]
    simp only [expandSpec, and_self, if_true, List.length_append, ih]
    rw [Nat.succ_mul]
    omega

/-- C10 (the code does not keep it): a command string of 2046 characters, all
`$`, with the pid 12345 expands to 5115 characters; `varExpansion` writes
`buffer[2048]`, outside the 2048 bytes of `buffer`. -/
theorem varExpansion_overflows_buffer :
    (List.replicate 2046 '$').length ≤ 2047 ∧
      (expandSpec (Nat.toDigits 10 12345) (List.replicate 2046 '$')).length = 5115 ∧
      varExpansion (List.replicate 2046 '$') 12345 = .fault (.bufferOverflow 2048) := by
  have hlen : (expandSpec (Nat.toDigits 10 12345) (List.replicate 2046 '$')).length = 5115 := by
    have h := expandSpec_sigils_length (Nat.toDigits 10 12345) 1023
    have hd : (Nat.toDigits 10 12345).length = 5 := by decide
    rw [hd] at h
    exact h
  refine ⟨by rw [List.length_replicate]; omega, hlen, ?_⟩
  rw [varExpansion_eq, hlen, if_neg (by omega)]

/-! ### `tokenize` -/

/-- C3, as the code has it: for every command line whose runs fit the `args`
array (at most 510 of them), `tokenize` yields, in order, exactly the maximal
runs of non-space characters of the line; the space is the only delimiter.  No
token is empty, no token contains a space, and the tokens put end to end are
the non-space characters of the line. -/
theorem tokenize_splits_on_spaces (command : CStr)
    (hcap : (nonSpaceRuns command).length ≤ 510) :
    tokenize command = .ok (argsOf (nonSpaceRuns command)) ∧
      argv (argsOf (nonSpaceRuns command)) = nonSpaceRuns command ∧
      (∀ t ∈ nonSpaceRuns command, t ≠ [] ∧ ' ' ∉ t) ∧
      (nonSpaceRuns command).flatten = command.filter (fun c => decide (c ≠ ' ')) :=
  ⟨tokenize_eq command (by omega), argv_argsOf _,
    fun t ht => ⟨nonSpaceRuns_ne_nil command t ht, nonSpaceRuns_no_space command t ht⟩,
    nonSpaceRuns_flatten command⟩

theorem tokenize_splits_on_spaces_witness :
    (nonSpaceRuns "  ls  -l a ".toList).length ≤ 510 ∧
      (tokenize "  ls  -l a ".toList = .ok (argsOf (nonSpaceRuns "  ls  -l a ".toList)) ∧
        argv (argsOf (nonSpaceRuns "  ls  -l a ".toList)) = nonSpaceRuns "  ls  -l a ".toList ∧
        (∀ t ∈ nonSpaceRuns "  ls  -l a ".toList, t ≠ [] ∧ ' ' ∉ t) ∧
        (nonSpaceRuns "  ls  -l a ".toList).flatten
          = "  ls  -l a ".toList.filter (fun c => decide (c ≠ ' '))) :=
  ⟨by decide, tokenize_splits_on_spaces "  ls  -l a ".toList (by decide)⟩

/-- C3, as stated, fails: on the line `a<TAB>b` the tab does not separate;
`tokenize` yields the single token `a<TAB>b`, which contains a tab, and not
the two runs `a` and `b`. -/
theorem tokenize_tab_is_no_delimiter :
    tokenize ['a', '\t', 'b'] = .ok (argsOf [['a', '\t', 'b']]) ∧
      '\t' ∈ ['a', '\t', 'b'] ∧
      tokenize ['a', '\t', 'b'] ≠ .ok (argsOf [['a'], ['b']]) := by
  decide

/-! ### `checkRedirection` -/

/-- C2: for every NULL-terminated `args` array that lies within its 512 cells
(the tokens `toks`, a NULL, and whatever cells `junk` follow it) and in which
each `<` or `>` token reached by the left-to-right scan is followed by a
token, `checkRedirection`, started with both paths unset as `prompt` does,
sets the input path to the token following the last `<` reached and the
output path to the token following the last `>` reached, leaves a path unset
when its operator does not occur, and leaves in `args` the tokens without
those operator/target pairs, in their order.  The cells `tokenize` writes
(`argsOf`) are the case `junk = [none]`. -/
theorem checkRedirection_extracts_paths (toks : List CStr) (junk : Args)
    (hcap : toks.length + 1 + junk.length ≤ 512)
    (hwf : operatorsHaveTargets toks = true) :
    ∃ args1 : Args,
      checkRedirection (toks.map some ++ none :: junk) none none
        = .ok (args1, (targetsOf ['<'] toks).getLast?, (targetsOf ['>'] toks).getLast?) ∧
      argv args1 = withoutRedirections toks := by
  refine ⟨(withoutRedirections toks).map some ++ none ::
    (toks.map some ++ none :: junk).drop ((withoutRedirections toks).length + 1), ?_,
    argv_map_some_none _ _⟩
  rw [checkRedirection_wellFormed toks junk none none hcap hwf]
  simp only [Option.or_none]

theorem checkRedirection_extracts_paths_witness :
    ["sort".toList, "<".toList, "in".toList, "-r".toList, ">".toList, "o1".toList,
        ">".toList, "o2".toList].length + 1 + [(none : Option CStr)].length ≤ 512 ∧
      operatorsHaveTargets ["sort".toList, "<".toList, "in".toList, "-r".toList, ">".toList,
        "o1".toList, ">".toList, "o2".toList] = true ∧
      ∃ args1 : Args,
        checkRedirection (["sort".toList, "<".toList, "in".toList, "-r".toList,
            ">".toList, "o1".toList, ">".toList, "o2".toList].map some ++ none :: [none])
            none none
          = .ok (args1,
              (targetsOf ['<'] ["sort".toList, "<".toList, "in".toList, "-r".toList,
                ">".toList, "o1".toList, ">".toList, "o2".toList]).getLast?,
              (targetsOf ['>'] ["sort".toList, "<".toList, "in".toList, "-r".toList,
                ">".toList, "o1".toList, ">".toList, "o2".toList]).getLast?) ∧
        argv args1 = withoutRedirections ["sort".toList, "<".toList, "in".toList,
          "-r".toList, ">".toList, "o1".toList, ">".toList, "o2".toList] :=
  ⟨by decide, by decide, checkRedirection_extracts_paths _ [none] (by decide) (by decide)⟩

/-! ### The job table -/

/-- C4: for every job table (the first `bgIDsIdx` cells of `bgIDs`) and every
pid, the removal step of `checkBackgroundStatus` yields the table with the
first occurrence of that pid deleted and the other entries in their order,
the count one less; when the pid is not in the table, array and count are
unchanged.  The table `[5, 9, 12]`, reaping 9, becomes `[5, 12]`. -/
theorem removeJob_deletes_first_occurrence (bgIDs : List Int) (bgIDsIdx : Nat) (pid : Int)
    (hlen : bgIDsIdx ≤ bgIDs.length) :
    jobTable (removeJob bgIDs bgIDsIdx pid).1 (removeJob bgIDs bgIDsIdx pid).2
        = (jobTable bgIDs bgIDsIdx).erase pid ∧
      (pid ∈ jobTable bgIDs bgIDsIdx → (removeJob bgIDs bgIDsIdx pid).2 = bgIDsIdx - 1) ∧
      (pid ∉ jobTable bgIDs bgIDsIdx → removeJob bgIDs bgIDsIdx pid = (bgIDs, bgIDsIdx)) ∧
      jobTable (removeJob (5 :: 9 :: 12 :: List.replicate 17 0) 3 9).1
          (removeJob (5 :: 9 :: 12 :: List.replicate 17 0) 3 9).2 = [5, 12] := by
  have h := removeLoop_spec pid bgIDs bgIDsIdx hlen bgIDsIdx 0 (by omega) (by omega) (by simp)
  exact ⟨h.1, h.2.1, h.2.2.1, by decide⟩

theorem removeJob_deletes_first_occurrence_witness :
    3 ≤ (5 :: 9 :: 12 :: List.replicate 17 (0 : Int)).length ∧
      (jobTable (removeJob (5 :: 9 :: 12 :: List.replicate 17 0) 3 9).1
          (removeJob (5 :: 9 :: 12 :: List.replicate 17 0) 3 9).2
          = (jobTable (5 :: 9 :: 12 :: List.replicate 17 0) 3).erase 9 ∧
        ((9 : Int) ∈ jobTable (5 :: 9 :: 12 :: List.replicate 17 0) 3 →
          (removeJob (5 :: 9 :: 12 :: List.replicate 17 0) 3 9).2 = 3 - 1) ∧
        ((9 : Int) ∉ jobTable (5 :: 9 :: 12 :: List.replicate 17 0) 3 →
          removeJob (5 :: 9 :: 12 :: List.replicate 17 0) 3 9
            = (5 :: 9 :: 12 :: List.replicate 17 0, 3)) ∧
        jobTable (removeJob (5 :: 9 :: 12 :: List.replicate 17 0) 3 9).1
          (removeJob (5 :: 9 :: 12 :: List.replicate 17 0) 3 9).2 = [5, 12]) :=
  ⟨by decide, removeJob_deletes_first_occurrence _ 3 9 (by decide)⟩

/-! ### `prompt`: empty lines and comments -/

theorem stripNewline_append_newline (body : CStr) : stripNewline (body ++ ['\n']) = body := by
  simp [stripNewline]

/-- C8, as the code has it: for every input line that, without its newline, is
empty or has `#` as its first character, `prompt` produces no command record:
it dispatches no built-in, does not call `execCommand` (no fork, no wait, no
exit), reports no error, and leaves the last status, the mode and the job
table as the sweep before the prompt left them. -/
theorem prompt_skips_empty_and_comment (sh : Shell) (w : World) (line : CStr)
    (h : stripNewline line = [] ∨ (stripNewline line)[0]? = some '#') :
    prompt sh w line
      = .ok { shell := { sh with
                bgIDs := (checkBackgroundStatus w.reaped sh.bgIDs sh.bgIDsIdx).2.1,
                bgIDsIdx := (checkBackgroundStatus w.reaped sh.bgIDs sh.bgIDsIdx).2.2 },
              events := (checkBackgroundStatus w.reaped sh.bgIDs sh.bgIDsIdx).1
                ++ [Event.print ": "],
              exited := false } := by
  have hc : (stripNewline line)[0]? = none ∨ (stripNewline line)[0]? = some '#' := by
    rcases h with h | h
    · left; rw [h]; rfl
    · right; exact h
  simp only [prompt, runLine, hc, if_true]

theorem prompt_skips_empty_and_comment_witness :
    (stripNewline "# a comment\n".toList = [] ∨
        (stripNewline "# a comment\n".toList)[0]? = some '#') ∧
      prompt freshShell (quietWorld 77 (exitedWith 0)) "# a comment\n".toList
        = .ok { shell := { freshShell with
                  bgIDs := (checkBackgroundStatus (quietWorld 77 (exitedWith 0)).reaped
                    freshShell.bgIDs freshShell.bgIDsIdx).2.1,
                  bgIDsIdx := (checkBackgroundStatus (quietWorld 77 (exitedWith 0)).reaped
                    freshShell.bgIDs freshShell.bgIDsIdx).2.2 },
                events := (checkBackgroundStatus (quietWorld 77 (exitedWith 0)).reaped
                  freshShell.bgIDs freshShell.bgIDsIdx).1 ++ [Event.print ": "],
                exited := false } :=
  ⟨by decide, prompt_skips_empty_and_comment freshShell (quietWorld 77 (exitedWith 0))
    "# a comment\n".toList (by decide)⟩

/-- C8, as stated, fails: on the line ` # note`, whose first non-space character
is `#`, `prompt` calls `execCommand`: it forks a child that runs `execvp` on the
program `#`, waits for it, and overwrites the last status (here with 1, the
child ending with `exit(1)`). -/
theorem prompt_executes_indented_comment :
    prompt freshShell (quietWorld 77 (exitedWith 1)) " # note\n".toList
      = .ok { shell := { freshShell with lastExitStatus := 1 },
              events := [Event.print ": ",
                Event.fork [ChildStep.sigint SigDisposition.SIG_DFL,
                  ChildStep.execvp [['#'], "note".toList]],
                Event.waitpid 77],
              exited := false } := by
  decide

/-- On a line of spaces only `tokenize` finds no token, `args[0]` is NULL, and
the first `strcmp(input->args[0], "exit")` of `prompt` dereferences it. -/
theorem prompt_blank_line_null_args :
    tokenize "   ".toList = .ok (argsOf []) ∧
      prompt freshShell (quietWorld 77 (exitedWith 0)) "   \n".toList = .fault .nullDeref := by
  decide

/-! ### `execCommand`: the foreground status -/

theorem foregroundStatus_eq (cs : WaitStatus) :
    foregroundStatus cs
      = if (cs.wifexited = true ∧ cs.wexitstatus ≠ 0) ∨ cs.wifsignaled = true then 1 else 0 := by
  unfold foregroundStatus
  by_cases h1 : cs.wifexited = true ∧ cs.wexitstatus ≠ 0
  · simp [h1]
  · by_cases h2 : cs.wifsignaled = true
    · simp [h1, h2]
    · simp [h1, h2]

theorem varExpansion_status (pid : Nat) :
    varExpansion "status".toList pid = .ok ("status".toList, false) := by
  have h : expandSpec (Nat.toDigits 10 pid) "status".toList = "status".toList := by
    simp [expandSpec]
  rw [varExpansion_eq, h]
  simp

/-- The line `status`, whatever the pid and the mode: `getStatus` on the stored status. -/
theorem runLine_status (sh : Shell) (w : World) :
    runLine sh w "status".toList
      = .ok { shell := sh, events := getStatus sh.lastExitStatus, exited := false } := by
  have ht : tokenize "status".toList = .ok (argsOf ["status".toList]) := by decide
  have hr : checkRedirection (argsOf ["status".toList]) none none
      = .ok ([some "status".toList, none, none], none, none) := by decide
  have h0 : ¬ (("status".toList)[0]? = none ∨ ("status".toList)[0]? = some '#') := by decide
  have h1 : ("status".toList = "exit".toList) = False := by decide
  have h2 : ("status".toList = "cd".toList) = False := by decide
  simp only [runLine, h0, if_false, varExpansion_status, ht, dispatch, hr]
  simp [h1, h2]

theorem prompt_status (sh : Shell) (w : World) :
    prompt sh w "status\n".toList
      = .ok { shell := { sh with
                bgIDs := (checkBackgroundStatus w.reaped sh.bgIDs sh.bgIDsIdx).2.1,
                bgIDsIdx := (checkBackgroundStatus w.reaped sh.bgIDs sh.bgIDsIdx).2.2 },
              events := (checkBackgroundStatus w.reaped sh.bgIDs sh.bgIDsIdx).1
                ++ Event.print ": " :: getStatus sh.lastExitStatus,
              exited := false } := by
  have hstr : stripNewline "status\n".toList = "status".toList := by decide
  simp only [prompt, hstr, runLine_status]

/-- C5: after a foreground command (background flag clear, or foreground-only
mode active) whose fork succeeded, the stored last status is 1 if the child
exited normally with a nonzero code or was terminated by a signal, and 0
otherwise, whatever it was before; so it is 0 or 1.  `getStatus` then prints
`exit value 1` respectively `exit value 0`, and so does `prompt` on a
following line `status` (after the sweep's notices and the prompt string),
leaving the status as it is. -/
theorem foreground_sets_binary_status (sh : Shell) (hasExpansion background : Bool)
    (args : Args) (inputFile outputFile : Option CStr) (childPid : Int) (cs : WaitStatus)
    (w : World)
    (hfork : childPid ≠ -1) (hfg : background = false ∨ sh.foregroundOnly = true) :
    ∃ st : Step,
      execCommand sh hasExpansion background args inputFile outputFile childPid cs = .ok st ∧
      st.shell.lastExitStatus
        = (if (cs.wifexited = true ∧ cs.wexitstatus ≠ 0) ∨ cs.wifsignaled = true
            then 1 else 0) ∧
      (st.shell.lastExitStatus = 0 ∨ st.shell.lastExitStatus = 1) ∧
      getStatus st.shell.lastExitStatus
        = [Event.print
            (if (cs.wifexited = true ∧ cs.wexitstatus ≠ 0) ∨ cs.wifsignaled = true
              then "exit value 1\n" else "exit value 0\n")] ∧
      ∃ st2 : Step,
        prompt st.shell w "status\n".toList = .ok st2 ∧
        st2.events = (checkBackgroundStatus w.reaped st.shell.bgIDs st.shell.bgIDsIdx).1
          ++ [Event.print ": ",
              Event.print
                (if (cs.wifexited = true ∧ cs.wexitstatus ≠ 0) ∨ cs.wifsignaled = true
                  then "exit value 1\n" else "exit value 0\n")] ∧
        st2.shell.lastExitStatus = st.shell.lastExitStatus := by
  have hbg : (if sh.foregroundOnly = true then false else background) = false := by
    rcases hfg with h | h
    · simp [h]
    · simp [h]
  refine ⟨{ shell := { sh with lastExitStatus := foregroundStatus cs },
            events := [Event.fork (childBranch false args inputFile outputFile),
              Event.waitpid childPid],
            exited := false }, ?_, ?_, ?_, ?_, ?_⟩
  · simp only [execCommand, hbg, hfork, if_false]
    simp
  · exact foregroundStatus_eq cs
  · simp only [foregroundStatus_eq]
    split
    · right; rfl
    · left; rfl
  · simp only [foregroundStatus_eq, getStatus]
    split <;> simp
  · refine ⟨_, prompt_status _ _, ?_, ?_⟩
    · simp only [foregroundStatus_eq, getStatus]
      split <;> simp
    · simp

theorem foreground_sets_binary_status_witness :
    ((77 : Int) ≠ -1) ∧ (false = false ∨ freshShell.foregroundOnly = true) ∧
    ∃ st : Step,
      execCommand freshShell false false (argsOf ["false".toList]) none none 77
        (exitedWith 1) = .ok st ∧
      st.shell.lastExitStatus
        = (if ((exitedWith 1).wifexited = true ∧ (exitedWith 1).wexitstatus ≠ 0)
              ∨ (exitedWith 1).wifsignaled = true then 1 else 0) ∧
      (st.shell.lastExitStatus = 0 ∨ st.shell.lastExitStatus = 1) ∧
      getStatus st.shell.lastExitStatus
        = [Event.print
            (if ((exitedWith 1).wifexited = true ∧ (exitedWith 1).wexitstatus ≠ 0)
                ∨ (exitedWith 1).wifsignaled = true
              then "exit value 1\n" else "exit value 0\n")] ∧
      ∃ st2 : Step,
        prompt st.shell (quietWorld 78 (exitedWith 0)) "status\n".toList = .ok st2 ∧
        st2.events
          = (checkBackgroundStatus (quietWorld 78 (exitedWith 0)).reaped st.shell.bgIDs
              st.shell.bgIDsIdx).1
            ++ [Event.print ": ",
                Event.print
                  (if ((exitedWith 1).wifexited = true ∧ (exitedWith 1).wexitstatus ≠ 0)
                      ∨ (exitedWith 1).wifsignaled = true
                    then "exit value 1\n" else "exit value 0\n")] ∧
        st2.shell.lastExitStatus = st.shell.lastExitStatus :=
  ⟨by decide, by decide,
    foreground_sets_binary_status freshShell false false (argsOf ["false".toList]) none none 77
      (exitedWith 1) (quietWorld 78 (exitedWith 0)) (by decide) (by decide)⟩

/-! ### `execCommand`: foreground-only mode -/

/-- C6: while foreground-only mode is active, `execCommand` on a command record
whose background flag is set does exactly what it does on the record with the
flag clear.  When the fork succeeds: the child installs the default SIGINT
handling and redirects nothing to `/dev/null`, the parent waits for that
child, the job table and its count stay as they are, nothing is printed (no
`background pid is N`), and the last status is set from the child's outcome,
which `getStatus` then prints.  SIGTSTP in normal mode activates the mode. -/
theorem foregroundOnly_ignores_background_flag (sh : Shell) (hasExpansion : Bool)
    (args : Args) (inputFile outputFile : Option CStr) (childPid : Int) (cs : WaitStatus)
    (hmode : sh.foregroundOnly = true) :
    execCommand sh hasExpansion true args inputFile outputFile childPid cs
        = execCommand sh hasExpansion false args inputFile outputFile childPid cs ∧
      (childPid ≠ -1 →
        execCommand sh hasExpansion true args inputFile outputFile childPid cs
          = .ok { shell := { sh with lastExitStatus := foregroundStatus cs },
                  events := [Event.fork (childBranch false args inputFile outputFile),
                    Event.waitpid childPid],
                  exited := false }) ∧
      (childBranch false args inputFile outputFile).head? = some (.sigint .SIG_DFL) ∧
      ChildStep.sigint .SIG_IGN ∉ childBranch false args inputFile outputFile ∧
      ChildStep.nullInput ∉ childBranch false args inputFile outputFile ∧
      ChildStep.nullOutput ∉ childBranch false args inputFile outputFile ∧
      getStatus (foregroundStatus cs)
        = [Event.print
            (if (cs.wifexited = true ∧ cs.wexitstatus ≠ 0) ∨ cs.wifsignaled = true
              then "exit value 1\n" else "exit value 0\n")] ∧
      (handle_SIGTSTP { sh with foregroundOnly := false }).1.foregroundOnly = true := by
  refine ⟨?_, ?_, ?_, ?_, ?_, ?_, ?_, ?_⟩
  · simp [execCommand, hmode]
  · intro hfork
    simp [execCommand, hmode, hfork]
  · simp [childBranch]
  · cases inputFile <;> cases outputFile <;> simp [childBranch]
  · cases inputFile <;> cases outputFile <;> simp [childBranch]
  · cases inputFile <;> cases outputFile <;> simp [childBranch]
  · simp only [foregroundStatus_eq, getStatus]
    split <;> simp
  · simp [handle_SIGTSTP]

theorem foregroundOnly_ignores_background_flag_witness :
    (handle_SIGTSTP freshShell).1.foregroundOnly = true ∧
      (execCommand (handle_SIGTSTP freshShell).1 false true (argsOf ["sleep".toList, "5".toList])
          none none 77 (exitedWith 0)
        = execCommand (handle_SIGTSTP freshShell).1 false false
            (argsOf ["sleep".toList, "5".toList]) none none 77 (exitedWith 0) ∧
      ((77 : Int) ≠ -1 →
        execCommand (handle_SIGTSTP freshShell).1 false true
            (argsOf ["sleep".toList, "5".toList]) none none 77 (exitedWith 0)
          = .ok { shell := { (handle_SIGTSTP freshShell).1 with
                    lastExitStatus := foregroundStatus (exitedWith 0) },
                  events := [Event.fork (childBranch false (argsOf ["sleep".toList, "5".toList])
                      none none),
                    Event.waitpid 77],
                  exited := false }) ∧
      (childBranch false (argsOf ["sleep".toList, "5".toList]) none none).head?
        = some (.sigint .SIG_DFL) ∧
      ChildStep.sigint .SIG_IGN ∉ childBranch false (argsOf ["sleep".toList, "5".toList])
        none none ∧
      ChildStep.nullInput ∉ childBranch false (argsOf ["sleep".toList, "5".toList]) none none ∧
      ChildStep.nullOutput ∉ childBranch false (argsOf ["sleep".toList, "5".toList]) none none ∧
      getStatus (foregroundStatus (exitedWith 0))
        = [Event.print
            (if ((exitedWith 0).wifexited = true ∧ (exitedWith 0).wexitstatus ≠ 0)
                ∨ (exitedWith 0).wifsignaled = true
              then "exit value 1\n" else "exit value 0\n")] ∧
      (handle_SIGTSTP { (handle_SIGTSTP freshShell).1 with foregroundOnly := false }).1.foregroundOnly
        = true) :=
  ⟨by decide,
    foregroundOnly_ignores_background_flag (handle_SIGTSTP freshShell).1 false
      (argsOf ["sleep".toList, "5".toList]) none none 77 (exitedWith 0) (by decide)⟩

/-! ### `execCommand`: recording a background pid -/

/-- C9 (the code does not keep it): from the state `main` starts with, twenty
lines `sleep 100 &` whose children do not end fill the table (count 20, the
pids 100 .. 119 in order); the next such line makes the parent branch of
`execCommand` write `bgIDs[20]`, outside the 20 cells of the array.  Nothing
in `execCommand` tests the count. -/
theorem recordJob_writes_past_the_table :
    (∃ st : Step, mainLoop (sleepers 20) freshShell [] = .ok st ∧ st.shell.bgIDsIdx = 20 ∧
        st.shell.bgIDs.length = 20 ∧
        jobTable st.shell.bgIDs st.shell.bgIDsIdx
          = [100, 101, 102, 103, 104, 105, 106, 107, 108, 109, 110, 111, 112, 113, 114,
              115, 116, 117, 118, 119]) ∧
      mainLoop (sleepers 21) freshShell [] = .fault (.jobTableOverflow 20) :=
  ⟨⟨_, rfl, by decide, by decide, by decide⟩, by decide⟩

/-! ### `prompt`: a `&` after a built-in -/

theorem splitOnP_append_sep {α : Type} (p : α → Bool) (sep : α) (hsep : p sep = true)
    (r : List α) :
    ∀ s : List α, (s ++ sep :: r).splitOnP p = s.splitOnP p ++ r.splitOnP p := by
  intro s
  induction s with
  | nil => simp [hsep]
  | cons x s ih =>
    rw [List.cons_append, List.splitOnP_cons, List.splitOnP_cons, ih]
    by_cases hx : p x = true
    · simp [hx]
    · simp only [hx, if_false]
      cases hs : s.splitOnP p with
      | nil => exact absurd hs (List.splitOnP_ne_nil p s)
      | cons h tl => simp

theorem nonSpaceRuns_append_space (s r : List Char) :
    nonSpaceRuns (s ++ ' ' :: r) = nonSpaceRuns s ++ nonSpaceRuns r := by
  unfold nonSpaceRuns
  rw [splitOnP_append_sep (fun c => c == ' ') ' ' (by simp) r s, List.filter_append]

theorem expandSpec_append (digits : List Char) (c : Char) (r : List Char) (hc : c ≠ '$') :
    ∀ (n : Nat) (s : List Char), s.length ≤ n →
      expandSpec digits (s ++ c :: r) = expandSpec digits s ++ expandSpec digits (c :: r) := by
  intro n
  induction n with
  | zero =>
    intro s h
    have : s = [] := List.length_eq_zero.mp (by omega)
    subst this
    simp [expandSpec]
  | succ n ih =>
    intro s h
    match s, h with
    | [], _ => simp [expandSpec]
    | [x], _ =>
      have hxc : ¬ (x = '$' ∧ c = '$') := fun h => hc h.2
      simp only [List.cons_append, List.nil_append]
      rw [expandSpec.eq_3]
      simp [hxc, expandSpec]
    | x :: y :: s, h =>
      simp only [List.length_cons] at h
      simp only [List.cons_append]
      rw [expandSpec.eq_3, expandSpec.eq_3]
      by_cases hxy : x = '$' ∧ y = '$'
      · simp only [hxy, and_self, if_true]
        rw [ih s (by omega)]
        simp
      · simp only [hxy, if_false]
        have := ih (y :: s) (by simp only [List.length_cons]; omega)
        simp only [List.cons_append] at this
        rw [this]
        simp

theorem changeDirectory_two (a d : CStr) (r : Args) (cwd : CStr) :
    changeDirectory (some a :: some d :: r) cwd = changeDirectory [some a, some d] cwd := by
  simp [changeDirectory]

theorem changeDirectory_no_fork (args : Args) (cwd : CStr) (evs : List Event)
    (h : changeDirectory args cwd = .ok evs) : ∀ child, Event.fork child ∉ evs := by
  intro child
  unfold changeDirectory at h
  split at h
  · split at h
    · simp only [Res.ok.injEq] at h
      subst h; simp
    · split at h
      · exact Res.noConfusion h
      · split at h
        · split at h
          · simp only [Res.ok.injEq] at h
            subst h; simp
          · exact Res.noConfusion h
        · split at h
          · split at h
            · simp only [Res.ok.injEq] at h
              subst h; simp
            · exact Res.noConfusion h
          · exact Res.noConfusion h
  · exact Res.noConfusion h
  · exact Res.noConfusion h

/-- The dispatch of `prompt` on a line whose first token is `exit`. -/
theorem dispatch_exit (sh : Shell) (w : World) (hasExpansion : Bool) (rest : List CStr)
    (hcap : rest.length + 3 ≤ 512) :
    dispatch sh w hasExpansion (argsOf ("exit".toList :: rest))
      = .ok { shell := sh, events := [Event.exit 0], exited := true } := by
  unfold dispatch
  rw [checkRedirection_argsOf _ none none (by simp only [List.length_cons]; omega),
    redirScan_cons_keep _ _ _ _ (by decide)]
  simp

/-- The dispatch of `prompt` on a line whose first token is `status`. -/
theorem dispatch_status (sh : Shell) (w : World) (hasExpansion : Bool) (rest : List CStr)
    (hcap : rest.length + 3 ≤ 512) :
    dispatch sh w hasExpansion (argsOf ("status".toList :: rest))
      = .ok { shell := sh, events := getStatus sh.lastExitStatus, exited := false } := by
  have h1 : ("status".toList = "exit".toList) = False := by decide
  have h2 : ("status".toList = "cd".toList) = False := by decide
  unfold dispatch
  rw [checkRedirection_argsOf _ none none (by simp only [List.length_cons]; omega),
    redirScan_cons_keep _ _ _ _ (by decide)]
  simp [h1, h2]

/-- The dispatch of `prompt` on a line `cd dir ...`: `changeDirectory` sees `dir`. -/
theorem dispatch_cd (sh : Shell) (w : World) (hasExpansion : Bool) (dir : CStr)
    (rest : List CStr) (hdir : isRedirOp dir = false) (hcap : rest.length + 4 ≤ 512) :
    dispatch sh w hasExpansion (argsOf ("cd".toList :: dir :: rest))
      = match changeDirectory [some "cd".toList, some dir] w.cwd with
        | .fault f => .fault f
        | .ok evs => .ok { shell := sh, events := evs, exited := false } := by
  have h1 : ("cd".toList = "exit".toList) = False := by decide
  unfold dispatch
  rw [checkRedirection_argsOf _ none none (by simp only [List.length_cons]; omega),
    redirScan_cons_keep _ _ _ _ (by decide), redirScan_cons_keep _ _ _ _ hdir]
  simp only [List.map_cons, List.cons_append, List.getElem?_cons_zero, h1, if_false, if_true]
  rw [changeDirectory_two]

/-- On the tokens of a built-in line, a further token `&` at the end changes
nothing in the dispatch, which forks nothing and leaves the state alone. -/
theorem dispatch_builtin_ampersand (sh : Shell) (w : World) (he1 he2 : Bool)
    (toks : List CStr) (hb : builtinWithOperand toks = true) (hcap : toks.length + 3 ≤ 512) :
    dispatch sh w he1 (argsOf (toks ++ ["&".toList])) = dispatch sh w he2 (argsOf toks) ∧
      ∀ st, dispatch sh w he2 (argsOf toks) = .ok st →
        (∀ child, Event.fork child ∉ st.events) ∧ st.shell = sh := by
  match toks, hb, hcap with
  | [], hb, _ => simp [builtinWithOperand] at hb
  | [t], hb, hcap =>
    simp only [builtinWithOperand, Bool.or_eq_true, decide_eq_true_eq] at hb
    rcases hb with h | h
    · subst h
      rw [List.cons_append, dispatch_exit _ _ _ _ (by simp), dispatch_exit _ _ _ _ (by simp)]
      refine ⟨rfl, ?_⟩
      intro st hst
      simp only [Res.ok.injEq] at hst
      subst hst; simp
    · subst h
      rw [List.cons_append, dispatch_status _ _ _ _ (by simp),
        dispatch_status _ _ _ _ (by simp)]
      refine ⟨rfl, ?_⟩
      intro st hst
      simp only [Res.ok.injEq] at hst
      subst hst
      simp only [getStatus, and_true]
      intro child
      split
      · simp
      · split <;> simp
  | t :: d :: rest, hb, hcap =>
    simp only [List.length_cons] at hcap
    have hc1 : (d :: rest ++ ["&".toList]).length + 3 ≤ 512 := by
      simp only [List.length_append, List.length_cons, List.length_nil]; omega
    have hc2 : (d :: rest).length + 3 ≤ 512 := by
      simp only [List.length_cons]; omega
    have hc3 : (rest ++ ["&".toList]).length + 4 ≤ 512 := by
      simp only [List.length_append, List.length_cons, List.length_nil]; omega
    simp only [builtinWithOperand, Bool.or_eq_true, decide_eq_true_eq, Bool.and_eq_true,
      Bool.not_eq_true'] at hb
    rcases hb with (h | h) | h
    · subst h
      rw [List.cons_append, dispatch_exit _ _ _ _ hc1, dispatch_exit _ _ _ _ hc2]
      refine ⟨rfl, ?_⟩
      intro st hst
      simp only [Res.ok.injEq] at hst
      subst hst; simp
    · subst h
      rw [List.cons_append, dispatch_status _ _ _ _ hc1, dispatch_status _ _ _ _ hc2]
      refine ⟨rfl, ?_⟩
      intro st hst
      simp only [Res.ok.injEq] at hst
      subst hst
      simp only [getStatus, and_true]
      intro child
      split
      · simp
      · split <;> simp
    · obtain ⟨h, hd⟩ := h
      subst h
      rw [List.cons_append, List.cons_append, dispatch_cd _ _ _ _ _ hd hc3,
        dispatch_cd _ _ _ _ _ hd (by omega)]
      refine ⟨rfl, ?_⟩
      intro st hst
      cases hcd : changeDirectory [some "cd".toList, some d] w.cwd with
      | fault f => rw [hcd] at hst; exact Res.noConfusion hst
      | ok evs =>
        rw [hcd] at hst
        simp only [Res.ok.injEq] at hst
        subst hst
        exact ⟨changeDirectory_no_fork _ _ _ hcd, rfl⟩

theorem doneMessage_no_fork (pid : Int) (st : WaitStatus) :
    ∀ child, Event.fork child ∉ doneMessage pid st := by
  intro child
  unfold doneMessage
  split
  · simp
  · split <;> simp

theorem checkBackgroundStatus_no_fork :
    ∀ (reaped : List (Int × WaitStatus)) (bgIDs : List Int) (bgIDsIdx : Nat) child,
      Event.fork child ∉ (checkBackgroundStatus reaped bgIDs bgIDsIdx).1 := by
  intro reaped
  induction reaped with
  | nil => intro bgIDs bgIDsIdx child; simp [checkBackgroundStatus]
  | cons r more ih =>
    intro bgIDs bgIDsIdx child
    obtain ⟨pid, st⟩ := r
    simp only [checkBackgroundStatus, List.mem_append, not_or]
    exact ⟨doneMessage_no_fork pid st child, ih _ _ child⟩

/-- Lines 75-108 of `prompt` on a built-in line with ` &` appended. -/
theorem runLine_builtin_ampersand (sh : Shell) (w : World) (line : CStr)
    (hfit : (expandSpec (Nat.toDigits 10 w.pid) (line ++ " &".toList)).length < 2048)
    (hcap : (nonSpaceRuns (expandSpec (Nat.toDigits 10 w.pid) line)).length < 510)
    (hb : builtinWithOperand (nonSpaceRuns (expandSpec (Nat.toDigits 10 w.pid) line)) = true) :
    runLine sh w (line ++ " &".toList) = runLine sh w line ∧
      ∀ st, runLine sh w line = .ok st →
        (∀ child, Event.fork child ∉ st.events) ∧ st.shell = sh := by
  have hamp : " &".toList = ' ' :: ['&'] := rfl
  have hE : expandSpec (Nat.toDigits 10 w.pid) (line ++ " &".toList)
      = expandSpec (Nat.toDigits 10 w.pid) line ++ ' ' :: ['&'] := by
    rw [hamp, expandSpec_append _ ' ' ['&'] (by decide) line.length line (Nat.le_refl _)]
    simp [expandSpec]
  have hfit2 : (expandSpec (Nat.toDigits 10 w.pid) line).length < 2048 := by
    rw [hE] at hfit
    simp only [List.length_append, List.length_cons, List.length_nil] at hfit
    omega
  have hR : nonSpaceRuns (expandSpec (Nat.toDigits 10 w.pid) line ++ ' ' :: ['&'])
      = nonSpaceRuns (expandSpec (Nat.toDigits 10 w.pid) line) ++ ["&".toList] := by
    rw [nonSpaceRuns_append_space]
    have : nonSpaceRuns ['&'] = ["&".toList] := by decide
    rw [this]
  cases line with
  | nil =>
    have : nonSpaceRuns (expandSpec (Nat.toDigits 10 w.pid) []) = [] := by
      simp [expandSpec, nonSpaceRuns]
    rw [this] at hb
    simp [builtinWithOperand] at hb
  | cons c l =>
    by_cases hc : c = '#'
    · subst hc
      simp only [runLine, List.cons_append, List.getElem?_cons_zero, or_true, if_true,
        true_and]
      intro st hst
      simp only [Res.ok.injEq] at hst
      subst hst; simp
    · have hcond : ¬ (((c :: l) ++ " &".toList)[0]? = none ∨
          ((c :: l) ++ " &".toList)[0]? = some '#') := by
        simp [hc]
      have hcond2 : ¬ ((c :: l)[0]? = none ∨ (c :: l)[0]? = some '#') := by
        simp [hc]
      have hd := dispatch_builtin_ampersand sh w
        (decide (expandSpec (Nat.toDigits 10 w.pid) (c :: l ++ " &".toList) ≠ c :: l ++ " &".toList))
        (decide (expandSpec (Nat.toDigits 10 w.pid) (c :: l) ≠ c :: l))
        (nonSpaceRuns (expandSpec (Nat.toDigits 10 w.pid) (c :: l))) hb (by omega)
      have ht1 : tokenize (expandSpec (Nat.toDigits 10 w.pid) (c :: l) ++ ' ' :: ['&'])
          = .ok (argsOf (nonSpaceRuns (expandSpec (Nat.toDigits 10 w.pid) (c :: l))
              ++ ["&".toList])) := by
        rw [← hR]
        apply tokenize_eq
        rw [hR]
        simp only [List.length_append, List.length_singleton]
        omega
      have ht2 := tokenize_eq (expandSpec (Nat.toDigits 10 w.pid) (c :: l)) (by omega)
      have hv1 := varExpansion_eq (c :: l ++ " &".toList) w.pid
      rw [if_pos hfit] at hv1
      have hv2 := varExpansion_eq (c :: l) w.pid
      rw [if_pos hfit2] at hv2
      have hrun1 : runLine sh w (c :: l ++ " &".toList)
          = dispatch sh w
              (decide (expandSpec (Nat.toDigits 10 w.pid) (c :: l ++ " &".toList)
                ≠ c :: l ++ " &".toList))
              (argsOf (nonSpaceRuns (expandSpec (Nat.toDigits 10 w.pid) (c :: l))
                ++ ["&".toList])) := by
        unfold runLine
        rw [if_neg hcond, hv1]
        simp only
        rw [hE, ht1]
      have hrun2 : runLine sh w (c :: l)
          = dispatch sh w (decide (expandSpec (Nat.toDigits 10 w.pid) (c :: l) ≠ c :: l))
              (argsOf (nonSpaceRuns (expandSpec (Nat.toDigits 10 w.pid) (c :: l)))) := by
        unfold runLine
        rw [if_neg hcond2, hv2]
        simp only
        rw [ht2]
      rw [hrun1, hrun2]
      exact hd

/-- The lines on which a trailing `&` after a built-in makes no difference: when
the tokens of the expanded line start with `exit`, with `status`, or with `cd`
and an operand, `prompt` does on the line with ` &` appended what it does on
the line itself (the same result, or the same fault of `changeDirectory` on an
operand too long for `newpath`), forks nothing and leaves the state as the
sweep left it. -/
theorem builtin_ignores_trailing_ampersand (sh : Shell) (w : World) (line : CStr)
    (hfit : (expandSpec (Nat.toDigits 10 w.pid) (line ++ " &".toList)).length < 2048)
    (hcap : (nonSpaceRuns (expandSpec (Nat.toDigits 10 w.pid) line)).length < 510)
    (hb : builtinWithOperand (nonSpaceRuns (expandSpec (Nat.toDigits 10 w.pid) line)) = true) :
    prompt sh w (line ++ " &\n".toList) = prompt sh w (line ++ "\n".toList) ∧
      ∀ st, prompt sh w (line ++ " &\n".toList) = .ok st →
        (∀ child, Event.fork child ∉ st.events) ∧
        st.shell = { sh with
          bgIDs := (checkBackgroundStatus w.reaped sh.bgIDs sh.bgIDsIdx).2.1,
          bgIDsIdx := (checkBackgroundStatus w.reaped sh.bgIDs sh.bgIDsIdx).2.2 } := by
  have h1 : line ++ " &\n".toList = (line ++ " &".toList) ++ ['\n'] := by
    rw [List.append_assoc]; rfl
  have h2 : line ++ "\n".toList = line ++ ['\n'] := rfl
  have hr := runLine_builtin_ampersand
    { sh with
      bgIDs := (checkBackgroundStatus w.reaped sh.bgIDs sh.bgIDsIdx).2.1,
      bgIDsIdx := (checkBackgroundStatus w.reaped sh.bgIDs sh.bgIDsIdx).2.2 }
    w line hfit hcap hb
  rw [h1, h2]
  unfold prompt
  simp only [stripNewline_append_newline]
  rw [hr.1]
  refine ⟨rfl, ?_⟩
  intro st hst
  cases hrun : runLine
      { sh with
        bgIDs := (checkBackgroundStatus w.reaped sh.bgIDs sh.bgIDsIdx).2.1,
        bgIDsIdx := (checkBackgroundStatus w.reaped sh.bgIDs sh.bgIDsIdx).2.2 }
      w line with
  | fault f => rw [hrun] at hst; exact Res.noConfusion hst
  | ok st1 =>
    rw [hrun] at hst
    simp only [Res.ok.injEq] at hst
    subst hst
    have h3 := hr.2 st1 hrun
    refine ⟨?_, h3.2⟩
    intro child
    simp only [List.mem_append, List.mem_cons, not_or]
    exact ⟨checkBackgroundStatus_no_fork _ _ _ child, by simp, h3.1 child⟩

theorem builtin_ignores_trailing_ampersand_witness :
    (expandSpec (Nat.toDigits 10 (quietWorld 77 (exitedWith 0)).pid)
        ("cd dir".toList ++ " &".toList)).length < 2048 ∧
      (nonSpaceRuns (expandSpec (Nat.toDigits 10 (quietWorld 77 (exitedWith 0)).pid)
        "cd dir".toList)).length < 510 ∧
      builtinWithOperand (nonSpaceRuns
        (expandSpec (Nat.toDigits 10 (quietWorld 77 (exitedWith 0)).pid) "cd dir".toList))
        = true ∧
      (prompt freshShell (quietWorld 77 (exitedWith 0)) ("cd dir".toList ++ " &\n".toList)
          = prompt freshShell (quietWorld 77 (exitedWith 0)) ("cd dir".toList ++ "\n".toList) ∧
        ∀ st, prompt freshShell (quietWorld 77 (exitedWith 0))
              ("cd dir".toList ++ " &\n".toList) = .ok st →
          (∀ child, Event.fork child ∉ st.events) ∧
          st.shell = { freshShell with
            bgIDs := (checkBackgroundStatus (quietWorld 77 (exitedWith 0)).reaped
              freshShell.bgIDs freshShell.bgIDsIdx).2.1,
            bgIDsIdx := (checkBackgroundStatus (quietWorld 77 (exitedWith 0)).reaped
              freshShell.bgIDs freshShell.bgIDsIdx).2.2 }) :=
  ⟨by decide, by decide, by decide,
    builtin_ignores_trailing_ampersand freshShell (quietWorld 77 (exitedWith 0))
      "cd dir".toList (by decide) (by decide) (by decide)⟩

/-- C7 (the code does not keep it): the line `cd &` is not handled as the line
`cd`.  `prompt` dispatches `cd` before `checkBackground` is called, so the `&`
stays in `args`; `changeDirectory` finds `args[1]` not NULL and takes `&` as a
relative path: the shell calls `chdir` on `&` under the working directory, not
on the home location `/nfs/stak/users/montgale` as for `cd`.  The guard of
`checkBackground` names `cd`, `status` and `exit` and leaves their `&` in
place, while for any other command (here `ls &`) the same function removes
the token. -/
theorem cd_ampersand_is_not_cd :
    prompt freshShell (quietWorld 77 (exitedWith 0)) "cd &\n".toList
        = .ok { shell := freshShell,
                events := [Event.print ": ", Event.chdir "/home/u/&".toList],
                exited := false } ∧
      prompt freshShell (quietWorld 77 (exitedWith 0)) "cd\n".toList
        = .ok { shell := freshShell,
                events := [Event.print ": ", Event.chdir "/nfs/stak/users/montgale".toList],
                exited := false } ∧
      prompt freshShell (quietWorld 77 (exitedWith 0)) "cd &\n".toList
        ≠ prompt freshShell (quietWorld 77 (exitedWith 0)) "cd\n".toList ∧
      checkBackground (argsOf ["cd".toList, "&".toList])
        = .ok (argsOf ["cd".toList, "&".toList], false) ∧
      checkBackground (argsOf ["ls".toList, "&".toList])
        = .ok ([some "ls".toList, none, none, none], true) := by
  decide

end Smallsh
